import Mathlib

/-!
# Verification of the outlines-core automaton-indexing engine

This file gives a shallow embedding of the automaton-indexing engine of the
repository (the pyo3 binding layer `src/python_bindings/mod.rs` together with
the `crate::regex` operations it re-exports) and proves or refutes the frozen
claims about it.

Machine integers (`u32` state ids, transition keys and token ids) are modelled
as `Nat`: the code performs no arithmetic on them, only equality tests and
table lookups, so no overflow can occur.  Rust `HashMap`s are modelled as
association lists; Rust `HashSet`s of state ids are modelled as `Finset Nat`.
The unspecified iteration order of a `HashSet` is modelled by explicit
order-choice parameters (`pick` for the frontier set, `ord` for scan-result
sets) constrained only to enumerate the underlying set.
-/

/-- A transition table: association list from `(state, transition key)` to the
destination state, modelling `HashMap<(u32, u32), u32>`. -/
abbrev Transitions := List ((Nat × Nat) × Nat)

/-- Lookup in the transition table (`fsm_transitions.get(&(state, key))`).
`HashMap` keys are unique, so first-match lookup is faithful. -/
def transGet (trans : Transitions) (k : Nat × Nat) : Option Nat :=
  match trans with
  | [] => none
  | e :: rest => if e.1 = k then some e.2 else transGet rest k

/-- A symbol mapping: association list from a character (as text) to its
transition key, modelling `HashMap<String, u32>`.  Character text is modelled
as `List Char`. -/
abbrev SymbolMapping := List (List Char × Nat)

/-- Lookup in the symbol mapping (`alphabet_symbol_mapping.get(...)`). -/
def smGet (sm : SymbolMapping) (s : List Char) : Option Nat :=
  match sm with
  | [] => none
  | e :: rest => if e.1 = s then some e.2 else smGet rest s

/-- A vocabulary: ordered sequence of (token text, token ids) pairs,
modelling `Vec<(String, Vec<u32>)>`. -/
abbrev Vocab := List (List Char × List Nat)

/-- Modelled from the spec: the per-key walking loop of `walk_fsm`
(`crate::regex::walk_fsm`, not present under `src/`; spec §4.2): starting at
`state`, consume keys one at a time; a defined transition appends the
destination state to the accumulator and advances; an undefined one stops
consumption immediately. -/
def walkAcc (trans : Transitions) : List Nat → Nat → List Nat
  | [], _ => []
  | k :: ks, s =>
    match transGet trans (s, k) with
    | some s2 => s2 :: walkAcc trans ks s2
    | none => []

/-- Modelled from the spec: `crate::regex::walk_fsm` (not present under
`src/`; spec §4.2).  `fsm_initial` and `fsm_finals` are received but not
consulted ("tracked by the caller, not consulted internally").  With
`full_match = false` the accumulated sequence for the longest walked prefix is
returned as-is; with `full_match = true` it is returned only when every key
was consumed, and otherwise the empty sequence signals total rejection. -/
def walk_fsm (fsm_transitions : Transitions) (fsm_initial : Nat)
    (fsm_finals : List Nat) (token_transition_keys : List Nat)
    (start_state : Nat) (full_match : Bool) : List Nat :=
  let acc := walkAcc fsm_transitions token_transition_keys start_state
  if full_match = true ∧ acc.length ≠ token_transition_keys.length then []
  else acc

/-- Modelled from the spec: `crate::regex::get_token_transition_keys` (not
present under `src/`; spec §4.1): each character of the token maps to its
assigned key when present in the symbol mapping and to `anything_value` when
absent. -/
def get_token_transition_keys (alphabet_symbol_mapping : SymbolMapping)
    (alphabet_anything_value : Nat) (token_str : List Char) : List Nat :=
  token_str.map (fun c => (smGet alphabet_symbol_mapping [c]).getD alphabet_anything_value)

/-- Modelled from the spec: `crate::regex::get_vocabulary_transition_keys`
(not present under `src/`; spec §4.1 and §3): per vocabulary entry, the
per-character key sequence, except that a frozen token is kept atomic and
yields a single-element sequence carrying the key assigned to the whole token
text (falling back to `anything_value`). -/
def get_vocabulary_transition_keys (alphabet_symbol_mapping : SymbolMapping)
    (alphabet_anything_value : Nat) (vocabulary : Vocab)
    (frozen_tokens : List (List Char)) : List (List Nat) :=
  vocabulary.map (fun tk =>
    if tk.1 ∈ frozen_tokens then
      [(smGet alphabet_symbol_mapping tk.1).getD alphabet_anything_value]
    else
      get_token_transition_keys alphabet_symbol_mapping alphabet_anything_value tk.1)

/-- Modelled from the spec: `crate::regex::state_scan_tokens` (not present
under `src/`; spec §4.3): for every vocabulary entry paired with its
precomputed key sequence, walk with `full_match = true` from `start_state`;
when the walk succeeds (non-empty result, or an empty key sequence trivially
consumed) the final state (or `start_state` for an empty sequence) is emitted
with every token id of the entry.  The result is a set, modelled as a
duplicate-free list. -/
def state_scan_tokens (fsm_transitions : Transitions) (fsm_initial : Nat)
    (fsm_finals : List Nat) (vocabulary : Vocab)
    (vocabulary_transition_keys : List (List Nat)) (start_state : Nat) :
    List (Nat × Nat) :=
  ((vocabulary.zip vocabulary_transition_keys).flatMap (fun tv =>
    let res := walk_fsm fsm_transitions fsm_initial fsm_finals tv.2 start_state true
    if res ≠ [] ∨ tv.2 = [] then
      tv.1.2.map (fun token_id => (token_id, res.getLastD start_state))
    else [])).dedup

/-- The automaton descriptor `FSMInfo` of `src/python_bindings/mod.rs`. -/
structure FSMInfo where
  initial : Nat
  finals : List Nat
  transitions : Transitions
  alphabet_anything_value : Nat
  alphabet_symbol_mapping : SymbolMapping

/-- `FSMInfo::new` of `src/python_bindings/mod.rs`: stores its five arguments
unchanged, with no validation. -/
def FSMInfo.new (initial : Nat) (finals : List Nat) (transitions : Transitions)
    (alphabet_anything_value : Nat) (alphabet_symbol_mapping : SymbolMapping) :
    FSMInfo :=
  ⟨initial, finals, transitions, alphabet_anything_value, alphabet_symbol_mapping⟩

/-- One recorded dict entry: `new_dict.set_item(token_id, end_state)` /
`existing_dict.set_item(token_id, end_state)` on the inner `PyDict` of the
index, modelled as a pointwise function update. -/
def applyPair (d : Nat → Option Nat) (p : Nat × Nat) : Nat → Option Nat :=
  fun t => if t = p.1 then some p.2 else d t

/-- Folding a list of (token id, end state) pairs into an inner dict:
later pairs overwrite earlier ones, as `set_item` does. -/
def applyPairs (d : Nat → Option Nat) (ps : List (Nat × Nat)) : Nat → Option Nat :=
  ps.foldl applyPair d

/-- The outer index dict `states_to_token_subsets`, modelled as a function
from state id to an optional inner dict. -/
abbrev IndexDict := Nat → Option (Nat → Option Nat)

/-- One iteration of the inner `for (token_id, end_state)` loop body of
`create_fsm_index_end_to_end_py` acting on the outer dict: update the existing
inner dict for `start_state` when present, else create a fresh one. -/
def indexInsert (idx : IndexDict) (s : Nat) (p : Nat × Nat) : IndexDict :=
  fun s2 =>
    if s2 = s then some (applyPair ((idx s).getD (fun _ => none)) p)
    else idx s2

/-- The inner `for (token_id, end_state) in token_ids_end_states` loop of
`create_fsm_index_end_to_end_py`: record each pair under key `s` and enqueue
`end_state` when it has not been seen.  `seen` is not modified during the
loop, matching the source. -/
def processPairs (seen : Finset Nat) (s : Nat) :
    List (Nat × Nat) → IndexDict → Finset Nat → IndexDict × Finset Nat
  | [], idx, next => (idx, next)
  | p :: rest, idx, next =>
      processPairs seen s rest (indexInsert idx s p)
        (if p.2 ∈ seen then next else insert p.2 next)

/-- The mutable loop state of `create_fsm_index_end_to_end_py`, plus a log
(`scans`) of the states passed to `state_scan_tokens`, in order. -/
structure BuildState where
  index : IndexDict
  seen : Finset Nat
  next : Finset Nat
  scans : List Nat

/-- A default loop state, used only to destructure optional results. -/
def emptyBuildState : BuildState := ⟨fun _ => none, ∅, ∅, []⟩

/-- The `while let Some(start_state) = next_states.iter().cloned().next()`
loop of `create_fsm_index_end_to_end_py`, with explicit fuel.  `pick` models
the arbitrary choice of an element from the `HashSet` frontier; `ord` models
the arbitrary iteration order of the `HashSet` of scanned pairs.  The result
is `some` exactly when the queue empties within `fuel` iterations. -/
def buildLoop (trans : Transitions) (fsmInitial : Nat) (fsmFinals : List Nat)
    (vocabulary : Vocab) (vtk : List (List Nat))
    (pick : Finset Nat → Nat) (ord : List (Nat × Nat) → List (Nat × Nat)) :
    Nat → BuildState → Option BuildState
  | 0, st => if st.next = ∅ then some st else none
  | fuel + 1, st =>
      if st.next = ∅ then some st
      else
        let s := pick st.next
        let pairs := ord (state_scan_tokens trans fsmInitial fsmFinals vocabulary vtk s)
        let r := processPairs st.seen s pairs st.index (st.next.erase s)
        buildLoop trans fsmInitial fsmFinals vocabulary vtk pick ord fuel
          ⟨r.1, insert s st.seen, r.2, st.scans ++ [s]⟩

/-- `create_fsm_index_end_to_end_py` of `src/python_bindings/mod.rs`:
precompute the vocabulary transition keys, then run the breadth-first loop
from `{initial}` with empty `seen`. -/
def create_fsm_index_end_to_end (fsm_info : FSMInfo) (vocabulary : Vocab)
    (frozen_tokens : List (List Char)) (pick : Finset Nat → Nat)
    (ord : List (Nat × Nat) → List (Nat × Nat)) (fuel : Nat) :
    Option BuildState :=
  let vtk := get_vocabulary_transition_keys fsm_info.alphabet_symbol_mapping
    fsm_info.alphabet_anything_value vocabulary frozen_tokens
  buildLoop fsm_info.transitions fsm_info.initial fsm_info.finals vocabulary vtk
    pick ord fuel ⟨fun _ => none, ∅, {fsm_info.initial}, []⟩

/-- A frontier-choice function is valid when it returns a member of any
nonempty set (any `HashSet` iteration can only yield members). -/
def ValidPick (pick : Finset Nat → Nat) : Prop :=
  ∀ s : Finset Nat, s.Nonempty → pick s ∈ s

/-- A scan-order function is valid when it enumerates exactly the underlying
set of the scanned pairs, in any order. -/
def ValidOrd (ord : List (Nat × Nat) → List (Nat × Nat)) : Prop :=
  ∀ l : List (Nat × Nat), (ord l).Perm l.dedup

/-- A concrete valid frontier choice: the minimum. -/
def pickArb : Finset Nat → Nat :=
  fun s => if h : s.Nonempty then s.min' h else 0

/-- A concrete valid scan order: first-occurrence order. -/
def ordId : List (Nat × Nat) → List (Nat × Nat) := fun l => l.dedup

/-- A concrete valid scan order: reversed first-occurrence order. -/
def ordRev : List (Nat × Nat) → List (Nat × Nat) := fun l => l.dedup.reverse

/-- The state visited after consuming `i` keys, given the accumulator so far:
the start state for `i = 0`, else the `i`-th accumulated state. -/
def stateAt (start : Nat) (acc : List Nat) (i : Nat) : Nat :=
  if i = 0 then start else acc.getD (i - 1) 0

/-- A finite universe containing every state id the index build can ever
enqueue: the initial state together with all transition destinations. -/
def stateUniv (trans : Transitions) (init : Nat) : Finset Nat :=
  insert init (trans.map (fun e => e.2)).toFinset

/-- The token-transition relation induced by the vocabulary scan: some token
leads from state `a` to state `b`. -/
def scanEdge (trans : Transitions) (init : Nat) (finals : List Nat)
    (vocab : Vocab) (vtk : List (List Nat)) (a b : Nat) : Prop :=
  ∃ t, (t, b) ∈ state_scan_tokens trans init finals vocab vtk a

/-- Reachability from the initial state via vocabulary-token transitions. -/
def ReachState (trans : Transitions) (init : Nat) (finals : List Nat)
    (vocab : Vocab) (vtk : List (List Nat)) (s : Nat) : Prop :=
  Relation.ReflTransGen (scanEdge trans init finals vocab vtk) init s

/-- The inner dict obtained by recording a list of (token id, end state)
pairs in order into a fresh dict; `none` when there is nothing to record. -/
def dictOf (ps : List (Nat × Nat)) : Option (Nat → Option Nat) :=
  if ps = [] then none else some (applyPairs (fun _ => none) ps)

/-- The transition relation recorded in a built index: some token id maps
state `a` to state `b` in the index. -/
def indexEdge (idx : IndexDict) (a b : Nat) : Prop :=
  ∃ t d, idx a = some d ∧ d t = some b

/-- Read one end state out of an optional build result: the entry of the
index at state `s` and token id `t`. -/
def indexVal (r : Option BuildState) (s t : Nat) : Option Nat :=
  (((r.getD emptyBuildState).index s).getD (fun _ => none)) t

/-- The vocabulary transition keys computed by the index build for a given
descriptor, vocabulary and frozen-token set. -/
def infoVtk (fsm_info : FSMInfo) (vocabulary : Vocab)
    (frozen_tokens : List (List Char)) : List (List Nat) :=
  get_vocabulary_transition_keys fsm_info.alphabet_symbol_mapping
    fsm_info.alphabet_anything_value vocabulary frozen_tokens

/-- The scan-result set of one state under the index build's inputs. -/
def infoScan (fsm_info : FSMInfo) (vocabulary : Vocab)
    (frozen_tokens : List (List Char)) (s : Nat) : List (Nat × Nat) :=
  state_scan_tokens fsm_info.transitions fsm_info.initial fsm_info.finals
    vocabulary (infoVtk fsm_info vocabulary frozen_tokens) s

/-- Some vocabulary token leads from state `a` to state `b` under the index
build's inputs. -/
def infoEdge (fsm_info : FSMInfo) (vocabulary : Vocab)
    (frozen_tokens : List (List Char)) (a b : Nat) : Prop :=
  ∃ t, (t, b) ∈ infoScan fsm_info vocabulary frozen_tokens a

/-- Reachability from the descriptor's initial state via vocabulary-token
transitions. -/
def infoReach (fsm_info : FSMInfo) (vocabulary : Vocab)
    (frozen_tokens : List (List Char)) (s : Nat) : Prop :=
  Relation.ReflTransGen (infoEdge fsm_info vocabulary frozen_tokens)
    fsm_info.initial s

/-- The termination measure of the index-build loop. -/
def buildMeasure (trans : Transitions) (init : Nat) (st : BuildState) : Nat :=
  2 * ((stateUniv trans init) \ st.seen).card + (st.next ∩ st.seen).card

/-- The invariant maintained by every iteration of the index-build loop. -/
structure LoopInv (trans : Transitions) (init : Nat) (finals : List Nat)
    (vocab : Vocab) (vtk : List (List Nat))
    (ord : List (Nat × Nat) → List (Nat × Nat)) (st : BuildState) : Prop where
  h_init : init ∈ st.seen ∪ st.next
  h_reach : ∀ s ∈ st.seen ∪ st.next, ReachState trans init finals vocab vtk s
  h_closed : ∀ s ∈ st.seen,
    ∀ p ∈ state_scan_tokens trans init finals vocab vtk s, p.2 ∈ st.seen ∪ st.next
  h_idx_unseen : ∀ s, s ∉ st.seen → st.index s = none
  h_idx_seen : ∀ s ∈ st.seen,
    st.index s = dictOf (ord (state_scan_tokens trans init finals vocab vtk s))
  h_cnt_unseen : ∀ s, s ∉ st.seen → st.scans.count s = 0
  h_cnt_pending : ∀ s ∈ st.seen, s ∈ st.next →
    scanEdge trans init finals vocab vtk s s ∧ st.scans.count s = 1
  h_cnt_done_loop : ∀ s ∈ st.seen, s ∉ st.next →
    scanEdge trans init finals vocab vtk s s → st.scans.count s = 2
  h_cnt_done_noloop : ∀ s ∈ st.seen, s ∉ st.next →
    ¬ scanEdge trans init finals vocab vtk s s → st.scans.count s = 1
  h_next_univ : st.next ⊆ stateUniv trans init

/- Concrete inputs used by counterexamples and witnesses. -/

/-- A one-state automaton whose single token loops back to the initial
state (`a` has key 5; `(0, 5) ↦ 0`). -/
def c1Info : FSMInfo := FSMInfo.new 0 [] [((0, 5), 0)] 99 [(['a'], 5)]

/-- Vocabulary for the self-loop scenario: one token text with id 10. -/
def c1Vocab : Vocab := [(['a'], [10])]

/-- The self-loop build, run with first-occurrence scan order. -/
def c1run : Option BuildState :=
  create_fsm_index_end_to_end c1Info c1Vocab [] pickArb ordId 3

/-- An automaton where token id 10 appears under two distinct texts, `a`
(key 1, to state 1) and `b` (key 2, to state 2). -/
def c2Info : FSMInfo :=
  FSMInfo.new 0 [] [((0, 1), 1), ((0, 2), 2)] 99 [(['a'], 1), (['b'], 2)]

/-- Vocabulary sharing token id 10 between texts `a` and `b`. -/
def c2Vocab : Vocab := [(['a'], [10]), (['b'], [10])]

/-- The duplicate-id build with first-occurrence scan order. -/
def c2run1 : Option BuildState :=
  create_fsm_index_end_to_end c2Info c2Vocab [] pickArb ordId 4

/-- The duplicate-id build with reversed scan order. -/
def c2run2 : Option BuildState :=
  create_fsm_index_end_to_end c2Info c2Vocab [] pickArb ordRev 4

/-- An automaton where a duplicated token id (10, under texts `a` and `b`)
hides the recorded route to an index key: `a` leads to state 1, `b` to
state 2, and token `c` (id 11) leads from state 1 to state 3. -/
def c8Info : FSMInfo :=
  FSMInfo.new 0 [] [((0, 1), 1), ((0, 2), 2), ((1, 3), 3)] 99
    [(['a'], 1), (['b'], 2), (['c'], 3)]

/-- Vocabulary for the hidden-route scenario. -/
def c8Vocab : Vocab := [(['a'], [10]), (['b'], [10]), (['c'], [11])]

/-- The hidden-route build with first-occurrence scan order: the overwrite
records `10 ↦ 2` at state 0, leaving index key 1 with no recorded route. -/
def c8run : Option BuildState :=
  create_fsm_index_end_to_end c8Info c8Vocab [] pickArb ordId 8

/-- The index of the hidden-route build. -/
def c8idx : IndexDict := (c8run.getD emptyBuildState).index

/-- The concrete-scenario automaton of the spec (`key_a = 5`): states
`{0, 1}`, finals `{1}`, transitions `{(0, 5) ↦ 1}`, anything value 99. -/
def c6Info : FSMInfo := FSMInfo.new 0 [1] [((0, 5), 1)] 99 [(['a'], 5)]

/-- The concrete-scenario vocabulary `[("a", [10]), ("b", [11])]`. -/
def c6Vocab : Vocab := [(['a'], [10]), (['b'], [11])]

/-- The concrete-scenario build. -/
def c6run : Option BuildState :=
  create_fsm_index_end_to_end c6Info c6Vocab [] pickArb ordId 8

/-- The concrete-scenario build result. -/
def c6st : BuildState := c6run.getD emptyBuildState

/- The schema-to-pattern compiler, modelled from the spec (§4.5):
`crate::json_schema` is not present under `src/`. -/

/-- Modelled from the spec: the named regex fragment for booleans. -/
def BOOLEAN : String := "(true|false)"

/-- Modelled from the spec: the named regex fragment for JSON null. -/
def NULL : String := "null"

/-- Modelled from the spec: the named regex fragment for integers. -/
def INTEGER : String := "(-)?(0|[1-9][0-9]*)"

/-- Modelled from the spec: the named regex fragment for numbers. -/
def NUMBER : String := "((-)?(0|[1-9][0-9]*))(\\.[0-9]+)?([eE][+-][0-9]+)?"

/-- Modelled from the spec: the named regex fragment for the interior of a
generic string. -/
def STRING_INNER : String := "([^\"\\\\]|\\\\[\"\\\\])"

/-- Modelled from the spec: the named regex fragment for generic strings. -/
def STRING : String := "\"" ++ STRING_INNER ++ "*\""

/-- A digit fragment repeated `n` times. -/
def digitRep (n : Nat) : String := String.join (List.replicate n "[0-9]")

/-- A hexadecimal-digit fragment repeated `n` times. -/
def hexRep (n : Nat) : String := String.join (List.replicate n "[0-9a-fA-F]")

/-- Modelled from the spec: the named regex fragment for dates. -/
def DATE : String := "\"" ++ digitRep 4 ++ "-" ++ digitRep 2 ++ "-" ++ digitRep 2 ++ "\""

/-- Modelled from the spec: the named regex fragment for times. -/
def TIME : String := "\"" ++ digitRep 2 ++ ":" ++ digitRep 2 ++ ":" ++ digitRep 2 ++ "\""

/-- Modelled from the spec: the named regex fragment for date-times. -/
def DATE_TIME : String :=
  "\"" ++ digitRep 4 ++ "-" ++ digitRep 2 ++ "-" ++ digitRep 2 ++ "T" ++
    digitRep 2 ++ ":" ++ digitRep 2 ++ ":" ++ digitRep 2 ++ "\""

/-- Modelled from the spec: the named regex fragment for canonical
hyphenated hexadecimal UUID strings. -/
def UUID : String :=
  "\"" ++ hexRep 8 ++ "-" ++ hexRep 4 ++ "-" ++ hexRep 4 ++ "-" ++
    hexRep 4 ++ "-" ++ hexRep 12 ++ "\""

/-- Modelled from the spec: the default minimal whitespace fragment used
between structural tokens. -/
def WHITESPACE : String := "[ ]?"

/-- Modelled from the spec: the closed sum type of schema node kinds the
compiler dispatches on (spec §9, "recursive schema compiler as tagged
variants"), with an explicit constructor for any construct outside the
supported set (unknown type name, malformed combinator). -/
inductive Schema where
  | boolean : Schema
  | nullType : Schema
  | integer : Schema
  | number : Schema
  | stringFmt : Option String → Schema
  | object : List (String × Schema) → Schema
  | array : Schema → Schema
  | anyOf : List Schema → Schema
  | ref : String → Schema
  | unsupported : String → Schema

/-- Resolution of an internal reference against the top-level context of
named sibling definitions. -/
def lookupDef (ctx : List (String × Schema)) (name : String) : Option Schema :=
  match ctx with
  | [] => none
  | e :: rest => if e.1 = name then some e.2 else lookupDef rest name

/-- Modelled from the spec: the recursive body of the schema-to-pattern
compiler (spec §4.5), dispatching each node to a named fragment or to the
composition rules for objects, arrays and unions, and resolving internal
references against `ctx`.  Recursion is bounded by explicit nesting fuel. -/
def toRegexAux (ctx : List (String × Schema)) (wsp : String) :
    Nat → Schema → Except String String
  | 0, _ => .error "maximum schema nesting depth exceeded"
  | _ + 1, .boolean => .ok BOOLEAN
  | _ + 1, .nullType => .ok NULL
  | _ + 1, .integer => .ok INTEGER
  | _ + 1, .number => .ok NUMBER
  | _ + 1, .stringFmt none => .ok STRING
  | _ + 1, .stringFmt (some fmt) =>
      if fmt = "date" then .ok DATE
      else if fmt = "date-time" then .ok DATE_TIME
      else if fmt = "time" then .ok TIME
      else if fmt = "uuid" then .ok UUID
      else .error ("unsupported string format: " ++ fmt)
  | fuel + 1, .object props => do
      let parts ← props.mapM (fun p => do
        let r ← toRegexAux ctx wsp fuel p.2
        pure ("\"" ++ p.1 ++ "\"" ++ wsp ++ ":" ++ wsp ++ r))
      pure ("\x7b" ++ wsp ++ String.intercalate ("," ++ wsp) parts ++ wsp ++ "\x7d")
  | fuel + 1, .array item => do
      let r ← toRegexAux ctx wsp fuel item
      pure ("\\[" ++ wsp ++ "(" ++ r ++ "(" ++ wsp ++ "," ++ wsp ++ r ++ ")*)?" ++ wsp ++ "\\]")
  | fuel + 1, .anyOf alts => do
      let parts ← alts.mapM (fun a => toRegexAux ctx wsp fuel a)
      pure ("(" ++ String.intercalate "|" parts ++ ")")
  | fuel + 1, .ref name =>
      match lookupDef ctx name with
      | some s => toRegexAux ctx wsp fuel s
      | none => .error ("missing referenced definition: " ++ name)
  | _ + 1, .unsupported c => .error ("unsupported schema construct: " ++ c)

/-- The decidable support predicate mirroring `toRegexAux`: exactly the
schemas on which compilation succeeds within the given nesting fuel. -/
def supportedB (ctx : List (String × Schema)) : Nat → Schema → Bool
  | 0, _ => false
  | _ + 1, .boolean => true
  | _ + 1, .nullType => true
  | _ + 1, .integer => true
  | _ + 1, .number => true
  | _ + 1, .stringFmt none => true
  | _ + 1, .stringFmt (some fmt) =>
      fmt = "date" || fmt = "date-time" || fmt = "time" || fmt = "uuid"
  | fuel + 1, .object props => props.all (fun p => supportedB ctx fuel p.2)
  | fuel + 1, .array item => supportedB ctx fuel item
  | fuel + 1, .anyOf alts => alts.all (fun a => supportedB ctx fuel a)
  | fuel + 1, .ref name =>
      match lookupDef ctx name with
      | some s => supportedB ctx fuel s
      | none => false
  | _ + 1, .unsupported _ => false

/-- Modelled from the spec: `json_schema::to_regex` (not present under
`src/`), taking a pre-parsed schema value and a top-level context for
resolving internal references.  The optional whitespace-pattern override must
be a valid regex fragment — validity is checked by the external regex
library, modelled as the parameter `wsOk` — or the call fails. -/
def to_regex (wsOk : String → Bool) (whitespace_pattern : Option String)
    (ctx : List (String × Schema)) (fuel : Nat) (json : Schema) :
    Except String String :=
  match whitespace_pattern with
  | some w =>
      if wsOk w then toRegexAux ctx w fuel json
      else .error ("invalid whitespace pattern: " ++ w)
  | none => toRegexAux ctx WHITESPACE fuel json

/-- Modelled from the spec: `json_schema::build_regex_from_schema` (not
present under `src/`), compiling a schema document — its named definitions
`defs` and its `root` — by handing the document itself to `to_regex` as the
resolution context. -/
def build_regex_from_schema (wsOk : String → Bool)
    (whitespace_pattern : Option String) (defs : List (String × Schema))
    (fuel : Nat) (root : Schema) : Except String String :=
  to_regex wsOk whitespace_pattern defs fuel root

/-! ## Properties of the automaton walk -/

theorem walkAcc_length_le (trans : Transitions) (ks : List Nat) (s : Nat) :
    (walkAcc trans ks s).length ≤ ks.length := by
  induction ks generalizing s with
  | nil => simp [walkAcc]
  | cons k ks ih =>
    simp only [walkAcc]
    cases h : transGet trans (s, k) with
    | none => simp
    | some s2 => simpa using ih s2

theorem stateAt_cons (s s2 : Nat) (acc : List Nat) (j : Nat) :
    stateAt s (s2 :: acc) (j + 1) = stateAt s2 acc j := by
  cases j with
  | zero => simp [stateAt]
  | succ m => simp [stateAt]

theorem walkAcc_step (trans : Transitions) (ks : List Nat) (s : Nat) :
    ∀ i, i < (walkAcc trans ks s).length →
      transGet trans (stateAt s (walkAcc trans ks s) i, ks.getD i 0) =
        some ((walkAcc trans ks s).getD i 0) := by
  induction ks generalizing s with
  | nil => intro i hi; simp [walkAcc] at hi
  | cons k ks ih =>
    intro i hi
    simp only [walkAcc] at hi ⊢
    cases h : transGet trans (s, k) with
    | none => rw [h] at hi; simp at hi
    | some s2 =>
      rw [h] at hi
      cases i with
      | zero => simpa [stateAt] using h
      | succ j =>
        rw [stateAt_cons]
        simp only [List.getD_cons_succ]
        exact ih s2 j (by simpa using hi)

theorem walkAcc_stuck (trans : Transitions) (ks : List Nat) (s : Nat) :
    (walkAcc trans ks s).length < ks.length →
      transGet trans
        (stateAt s (walkAcc trans ks s) (walkAcc trans ks s).length,
          ks.getD (walkAcc trans ks s).length 0) = none := by
  induction ks generalizing s with
  | nil => intro hi; simp [walkAcc] at hi
  | cons k ks ih =>
    intro hi
    simp only [walkAcc] at hi ⊢
    cases h : transGet trans (s, k) with
    | none => simpa [stateAt] using h
    | some s2 =>
      rw [h] at hi
      simp only [List.length_cons] at hi
      show transGet trans
        (stateAt s (s2 :: walkAcc trans ks s2) (s2 :: walkAcc trans ks s2).length,
          (k :: ks).getD (s2 :: walkAcc trans ks s2).length 0) = none
      rw [List.length_cons, stateAt_cons]
      simp only [List.getD_cons_succ]
      exact ih s2 (by omega)

theorem walk_fsm_false_eq (trans : Transitions) (init : Nat) (finals : List Nat)
    (ks : List Nat) (s : Nat) :
    walk_fsm trans init finals ks s false = walkAcc trans ks s := by
  simp [walk_fsm]

theorem walk_fsm_true_eq (trans : Transitions) (init : Nat) (finals : List Nat)
    (ks : List Nat) (s : Nat) :
    walk_fsm trans init finals ks s true =
      if (walkAcc trans ks s).length = ks.length then walkAcc trans ks s else [] := by
  by_cases h : (walkAcc trans ks s).length = ks.length <;> simp [walk_fsm, h]

theorem walk_fsm_full_cond (trans : Transitions) (init : Nat) (finals : List Nat)
    (ks : List Nat) (s : Nat) :
    (walk_fsm trans init finals ks s true ≠ [] ∨ ks = []) ↔
      (walkAcc trans ks s).length = ks.length := by
  rw [walk_fsm_true_eq]
  by_cases h : (walkAcc trans ks s).length = ks.length
  · rw [if_pos h]
    constructor
    · intro _; exact h
    · intro _
      cases ks with
      | nil => exact Or.inr rfl
      | cons k ks =>
        refine Or.inl (fun hnil => ?_)
        rw [hnil] at h
        simp at h
  · rw [if_neg h]
    constructor
    · rintro (hne | hnil)
      · exact absurd rfl hne
      · subst hnil; simp [walkAcc]
    · intro hlen; exact absurd hlen h

/-- C4: the walk consumes keys one at a time from the start state, stopping
at the first undefined (state, key) pair; with `full_match = false` it
returns the accumulated sequence for the longest successfully walked prefix
(each step a defined transition, the next key undefined when the prefix is
proper); with `full_match = true` it returns the accumulated sequence exactly
when its length equals the input length and otherwise the empty sequence; an
empty key sequence always returns an empty sequence and counts as success. -/
theorem walk_fsm_spec (fsm_transitions : Transitions) (fsm_initial : Nat)
    (fsm_finals : List Nat) (token_transition_keys : List Nat) (start_state : Nat) :
    (walk_fsm fsm_transitions fsm_initial fsm_finals token_transition_keys start_state false).length ≤
        token_transition_keys.length
    ∧ (∀ i, i < (walk_fsm fsm_transitions fsm_initial fsm_finals token_transition_keys start_state false).length →
        transGet fsm_transitions
          (stateAt start_state (walk_fsm fsm_transitions fsm_initial fsm_finals token_transition_keys start_state false) i,
            token_transition_keys.getD i 0) =
          some ((walk_fsm fsm_transitions fsm_initial fsm_finals token_transition_keys start_state false).getD i 0))
    ∧ ((walk_fsm fsm_transitions fsm_initial fsm_finals token_transition_keys start_state false).length <
          token_transition_keys.length →
        transGet fsm_transitions
          (stateAt start_state (walk_fsm fsm_transitions fsm_initial fsm_finals token_transition_keys start_state false)
              (walk_fsm fsm_transitions fsm_initial fsm_finals token_transition_keys start_state false).length,
            token_transition_keys.getD
              (walk_fsm fsm_transitions fsm_initial fsm_finals token_transition_keys start_state false).length 0) = none)
    ∧ (walk_fsm fsm_transitions fsm_initial fsm_finals token_transition_keys start_state true =
        if (walk_fsm fsm_transitions fsm_initial fsm_finals token_transition_keys start_state false).length =
            token_transition_keys.length
        then walk_fsm fsm_transitions fsm_initial fsm_finals token_transition_keys start_state false
        else [])
    ∧ (∀ full_match : Bool,
        walk_fsm fsm_transitions fsm_initial fsm_finals [] start_state full_match = []) := by
  rw [walk_fsm_false_eq]
  refine ⟨walkAcc_length_le _ _ _, walkAcc_step _ _ _, walkAcc_stuck _ _ _,
    walk_fsm_true_eq _ _ _ _ _, ?_⟩
  intro full_match
  cases full_match <;> simp [walk_fsm, walkAcc]

/-- Witness for C4 at a concrete input. -/
theorem walk_fsm_spec_witness :
    walk_fsm [((0, 5), 1)] 0 [1] [5, 7] 0 true =
      if (walk_fsm [((0, 5), 1)] 0 [1] [5, 7] 0 false).length = [5, 7].length
      then walk_fsm [((0, 5), 1)] 0 [1] [5, 7] 0 false else [] :=
  (walk_fsm_spec [((0, 5), 1)] 0 [1] [5, 7] 0).2.2.2.1

/-! ## Properties of the vocabulary scan -/

theorem mem_state_scan_tokens (trans : Transitions) (init : Nat)
    (finals : List Nat) (vocab : Vocab) (vtk : List (List Nat)) (start : Nat)
    (tid e : Nat) :
    (tid, e) ∈ state_scan_tokens trans init finals vocab vtk start ↔
      ∃ tv ∈ vocab.zip vtk, tid ∈ tv.1.2 ∧
        (walkAcc trans tv.2 start).length = tv.2.length ∧
        e = (walk_fsm trans init finals tv.2 start true).getLastD start := by
  unfold state_scan_tokens
  rw [List.mem_dedup, List.mem_flatMap]
  constructor
  · rintro ⟨tv, htv, hmem⟩
    by_cases hc : walk_fsm trans init finals tv.2 start true ≠ [] ∨ tv.2 = []
    · rw [if_pos hc] at hmem
      rw [List.mem_map] at hmem
      obtain ⟨t0, ht0, heq⟩ := hmem
      rw [Prod.mk.injEq] at heq
      obtain ⟨rfl, rfl⟩ := heq
      exact ⟨tv, htv, ht0, (walk_fsm_full_cond trans init finals tv.2 start).mp hc, rfl⟩
    · rw [if_neg hc] at hmem
      exact absurd hmem (List.not_mem_nil _)
  · rintro ⟨tv, htv, htid, hfull, he⟩
    refine ⟨tv, htv, ?_⟩
    rw [if_pos ((walk_fsm_full_cond trans init finals tv.2 start).mpr hfull)]
    rw [List.mem_map]
    exact ⟨tid, htid, by rw [he]⟩

/-- C5: the vocabulary scan emits a (token id, end state) pair exactly for
tokens whose key sequence is fully consumed from the start state — a token
whose walk hits a dead end before consuming its entire key sequence
contributes no pair, regardless of how many leading keys matched. -/
theorem state_scan_tokens_full_consumption (fsm_transitions : Transitions)
    (fsm_initial : Nat) (fsm_finals : List Nat) (vocabulary : Vocab)
    (vocabulary_transition_keys : List (List Nat)) (start_state : Nat)
    (token_id end_state : Nat) :
    (token_id, end_state) ∈
        state_scan_tokens fsm_transitions fsm_initial fsm_finals vocabulary
          vocabulary_transition_keys start_state ↔
      ∃ tv ∈ vocabulary.zip vocabulary_transition_keys, token_id ∈ tv.1.2 ∧
        (walkAcc fsm_transitions tv.2 start_state).length = tv.2.length ∧
        end_state = (walk_fsm fsm_transitions fsm_initial fsm_finals tv.2 start_state true).getLastD start_state :=
  mem_state_scan_tokens fsm_transitions fsm_initial fsm_finals vocabulary
    vocabulary_transition_keys start_state token_id end_state

/-- Witness for C5 at a concrete input: token id 11 (text `b`, dead end at
the first key) contributes no pair from state 0. -/
theorem state_scan_tokens_full_consumption_witness :
    ((10, 1) ∈ state_scan_tokens [((0, 5), 1)] 0 [1] [(['a'], [10]), (['b'], [11])] [[5], [99]] 0 ↔
      ∃ tv ∈ ([(['a'], [10]), (['b'], [11])] : Vocab).zip [[5], [99]], 10 ∈ tv.1.2 ∧
        (walkAcc [((0, 5), 1)] tv.2 0).length = tv.2.length ∧
        1 = (walk_fsm [((0, 5), 1)] 0 [1] tv.2 0 true).getLastD 0) :=
  state_scan_tokens_full_consumption [((0, 5), 1)] 0 [1]
    [(['a'], [10]), (['b'], [11])] [[5], [99]] 0 10 1

/-! ## Properties of the vocabulary key encoder -/

/-- C7: the encoder produces one key sequence per vocabulary entry; a
non-frozen token's sequence is the per-character mapping (assigned key when
present, `anything_value` when absent) and so has length equal to the
token's character count; a frozen token's sequence has length exactly 1
regardless of its text length. -/
theorem get_vocabulary_transition_keys_spec (alphabet_symbol_mapping : SymbolMapping)
    (alphabet_anything_value : Nat) (vocabulary : Vocab)
    (frozen_tokens : List (List Char)) :
    (get_vocabulary_transition_keys alphabet_symbol_mapping alphabet_anything_value
        vocabulary frozen_tokens).length = vocabulary.length
    ∧ List.Forall₂ (fun (tv : List Char × List Nat) (ks : List Nat) =>
        (tv.1 ∈ frozen_tokens → ks.length = 1) ∧
        (tv.1 ∉ frozen_tokens →
          ks = tv.1.map (fun c => (smGet alphabet_symbol_mapping [c]).getD alphabet_anything_value) ∧
          ks.length = tv.1.length))
      vocabulary
      (get_vocabulary_transition_keys alphabet_symbol_mapping alphabet_anything_value
        vocabulary frozen_tokens) := by
  constructor
  · simp [get_vocabulary_transition_keys]
  · induction vocabulary with
    | nil => simp [get_vocabulary_transition_keys]
    | cons tv rest ih =>
      simp only [get_vocabulary_transition_keys, List.map_cons]
      refine List.Forall₂.cons ?_ ih
      by_cases h : tv.1 ∈ frozen_tokens
      · simp [h]
      · simpa [h] using ⟨rfl, by simp [get_token_transition_keys]⟩

/-- Witness for C7 at a concrete input: a frozen two-character token gets a
single-element key sequence. -/
theorem get_vocabulary_transition_keys_spec_witness :
    (get_vocabulary_transition_keys [(['a'], 5)] 99 [(['a', 'b'], [7])] [['a', 'b']]).length =
      ([(['a', 'b'], [7])] : Vocab).length :=
  (get_vocabulary_transition_keys_spec [(['a'], 5)] 99 [(['a', 'b'], [7])] [['a', 'b']]).1

/-! ## The descriptor constructor -/

/-- C10: `FSMInfo::new` is total and performs no validation: for every
combination of arguments — including ones violating the documented
descriptor invariants — construction succeeds and stores the arguments
unchanged. -/
theorem FSMInfo_new_stores_arguments :
    ∀ (initial : Nat) (finals : List Nat) (transitions : Transitions)
      (alphabet_anything_value : Nat) (alphabet_symbol_mapping : SymbolMapping),
      (FSMInfo.new initial finals transitions alphabet_anything_value
          alphabet_symbol_mapping).initial = initial ∧
      (FSMInfo.new initial finals transitions alphabet_anything_value
          alphabet_symbol_mapping).finals = finals ∧
      (FSMInfo.new initial finals transitions alphabet_anything_value
          alphabet_symbol_mapping).transitions = transitions ∧
      (FSMInfo.new initial finals transitions alphabet_anything_value
          alphabet_symbol_mapping).alphabet_anything_value = alphabet_anything_value ∧
      (FSMInfo.new initial finals transitions alphabet_anything_value
          alphabet_symbol_mapping).alphabet_symbol_mapping = alphabet_symbol_mapping :=
  fun _ _ _ _ _ => ⟨rfl, rfl, rfl, rfl, rfl⟩

/-! ## Validity of the concrete order choices -/

theorem validPick_pickArb : ValidPick pickArb := by
  intro s hs
  simp only [pickArb, dif_pos hs]
  exact s.min'_mem hs

theorem validOrd_ordId : ValidOrd ordId := fun _ => List.Perm.refl _

theorem validOrd_ordRev : ValidOrd ordRev := fun l => l.dedup.reverse_perm

/-! ## Dict-recording lemmas -/

theorem getLast?_mem_self (l : List α) (x : α) (h : l.getLast? = some x) : x ∈ l := by
  obtain ⟨hne, rfl⟩ := List.mem_getLast?_eq_getLast (Option.mem_def.mpr h)
  exact List.getLast_mem hne

theorem applyPairs_apply (d : Nat → Option Nat) (ps : List (Nat × Nat)) (t : Nat) :
    applyPairs d ps t =
      ((ps.filter (fun p => p.1 == t)).getLast?).elim (d t) (fun p => some p.2) := by
  induction ps generalizing d with
  | nil => simp [applyPairs]
  | cons p rest ih =>
    show applyPairs (applyPair d p) rest t = _
    rw [ih (applyPair d p)]
    have hap : applyPair d p t = if t = p.1 then some p.2 else d t := rfl
    by_cases hp : p.1 = t
    · rw [List.filter_cons_of_pos (by simpa using hp)]
      cases hfr : rest.filter (fun q => q.1 == t) with
      | nil =>
        show applyPair d p t = ([p].getLast?).elim (d t) fun p => some p.2
        rw [hap, if_pos hp.symm]
        rfl
      | cons q qs =>
        rw [List.getLast?_cons_cons]
        cases hgl : (q :: qs).getLast? with
        | none => simp [List.getLast?_eq_none_iff] at hgl
        | some r => rfl
    · rw [List.filter_cons_of_neg (by simpa using hp)]
      cases hfr : rest.filter (fun q => q.1 == t) with
      | nil =>
        have ht : ¬ t = p.1 := fun h => hp h.symm
        simp [hap, ht]
      | cons q qs =>
        cases hgl : (q :: qs).getLast? with
        | none => simp [List.getLast?_eq_none_iff] at hgl
        | some r => rfl

theorem applyPairs_idem (d : Nat → Option Nat) (ps : List (Nat × Nat)) :
    applyPairs (applyPairs d ps) ps = applyPairs d ps := by
  funext t
  rw [applyPairs_apply, applyPairs_apply]
  cases h : (ps.filter (fun q => q.1 == t)).getLast? with
  | none => simp [applyPairs_apply, h]
  | some q => rfl

theorem applyPairs_eq_some (d : Nat → Option Nat) (ps : List (Nat × Nat))
    (t e : Nat) (h : applyPairs d ps t = some e) : (t, e) ∈ ps ∨ d t = some e := by
  rw [applyPairs_apply] at h
  cases hL : (ps.filter (fun q => q.1 == t)).getLast? with
  | none => rw [hL] at h; exact Or.inr h
  | some q =>
    rw [hL] at h
    have hq : q ∈ ps.filter (fun q => q.1 == t) := getLast?_mem_self _ _ hL
    rw [List.mem_filter] at hq
    have hqt : q.1 = t := by simpa using hq.2
    have hqe : q.2 = e := by simpa using h
    refine Or.inl ?_
    have : q = (t, e) := by
      cases q
      simp only at hqt hqe
      rw [hqt, hqe]
    exact this ▸ hq.1

theorem applyPairs_isSome_of_mem (d : Nat → Option Nat) (ps : List (Nat × Nat))
    (t e : Nat) (h : (t, e) ∈ ps) : (applyPairs d ps t).isSome = true := by
  rw [applyPairs_apply]
  cases hL : (ps.filter (fun q => q.1 == t)).getLast? with
  | none =>
    rw [List.getLast?_eq_none_iff] at hL
    have : (t, e) ∈ ps.filter (fun q => q.1 == t) := by
      rw [List.mem_filter]; exact ⟨h, by simp⟩
    rw [hL] at this
    exact absurd this (List.not_mem_nil _)
  | some q => rfl

theorem applyPairs_perm_unique (d : Nat → Option Nat) (ps qs : List (Nat × Nat))
    (hperm : ps.Perm qs)
    (huniq : ∀ t e e', (t, e) ∈ ps → (t, e') ∈ ps → e = e') :
    applyPairs d ps = applyPairs d qs := by
  funext t
  rw [applyPairs_apply, applyPairs_apply]
  have hfp : (ps.filter (fun q => q.1 == t)).Perm (qs.filter (fun q => q.1 == t)) :=
    hperm.filter _
  cases hL1 : (ps.filter (fun q => q.1 == t)).getLast? with
  | none =>
    rw [List.getLast?_eq_none_iff] at hL1
    have hq : qs.filter (fun q => q.1 == t) = [] := by
      have hperm0 := hfp.symm
      rw [hL1] at hperm0
      exact hperm0.eq_nil
    rw [hq]
    rfl
  | some q1 =>
    have hq1 : q1 ∈ ps.filter (fun q => q.1 == t) := getLast?_mem_self _ _ hL1
    cases hL2 : (qs.filter (fun q => q.1 == t)).getLast? with
    | none =>
      rw [List.getLast?_eq_none_iff] at hL2
      rw [hL2] at hfp
      rw [hfp.eq_nil] at hq1
      exact absurd hq1 (List.not_mem_nil _)
    | some q2 =>
      have hq2 : q2 ∈ qs.filter (fun q => q.1 == t) := getLast?_mem_self _ _ hL2
      have hq2' : q2 ∈ ps.filter (fun q => q.1 == t) := hfp.mem_iff.mpr hq2
      rw [List.mem_filter] at hq1 hq2'
      have h1t : q1.1 = t := by simpa using hq1.2
      have h2t : q2.1 = t := by simpa using hq2'.2
      have : q1.2 = q2.2 := by
        refine huniq t q1.2 q2.2 ?_ ?_
        · have := hq1.1; rwa [show (t, q1.2) = q1 from by rw [← h1t]]
        · have := hq2'.1; rwa [show (t, q2.2) = q2 from by rw [← h2t]]
      simp [this]

/-! ## Queue-processing lemmas -/

theorem processPairs_next_mem (seen : Finset Nat) (s : Nat) (ps : List (Nat × Nat)) :
    ∀ (idx : IndexDict) (next : Finset Nat) (u : Nat),
      u ∈ (processPairs seen s ps idx next).2 ↔
        u ∈ next ∨ (u ∉ seen ∧ ∃ t, (t, u) ∈ ps) := by
  induction ps with
  | nil => intro idx next u; simp [processPairs]
  | cons p rest ih =>
    intro idx next u
    simp only [processPairs]
    rw [ih]
    by_cases hm : p.2 ∈ seen
    · rw [if_pos hm]
      constructor
      · rintro (h | ⟨hu, t, ht⟩)
        · exact Or.inl h
        · exact Or.inr ⟨hu, t, List.mem_cons_of_mem _ ht⟩
      · rintro (h | ⟨hu, t, ht⟩)
        · exact Or.inl h
        · rw [List.mem_cons] at ht
          cases ht with
          | inl heq =>
            have hu2 : u = p.2 := congrArg Prod.snd heq
            subst hu2
            exact absurd hm hu
          | inr hmem => exact Or.inr ⟨hu, t, hmem⟩
    · rw [if_neg hm]
      constructor
      · rintro (h | ⟨hu, t, ht⟩)
        · rw [Finset.mem_insert] at h
          cases h with
          | inl heq =>
            subst heq
            exact Or.inr ⟨hm, p.1, List.mem_cons_self _ _⟩
          | inr hmem => exact Or.inl hmem
        · exact Or.inr ⟨hu, t, List.mem_cons_of_mem _ ht⟩
      · rintro (h | ⟨hu, t, ht⟩)
        · exact Or.inl (Finset.mem_insert_of_mem h)
        · rw [List.mem_cons] at ht
          cases ht with
          | inl heq =>
            have hu2 : u = p.2 := congrArg Prod.snd heq
            subst hu2
            exact Or.inl (Finset.mem_insert_self _ _)
          | inr hmem => exact Or.inr ⟨hu, t, hmem⟩

theorem processPairs_index_ne (seen : Finset Nat) (s : Nat) (ps : List (Nat × Nat)) :
    ∀ (idx : IndexDict) (next : Finset Nat) (s2 : Nat), s2 ≠ s →
      (processPairs seen s ps idx next).1 s2 = idx s2 := by
  induction ps with
  | nil => intro idx next s2 _; rfl
  | cons p rest ih =>
    intro idx next s2 h
    simp only [processPairs]
    rw [ih]
    · simp [indexInsert, h]
    · exact h

theorem processPairs_index_self (seen : Finset Nat) (s : Nat) (ps : List (Nat × Nat)) :
    ∀ (idx : IndexDict) (next : Finset Nat),
      (processPairs seen s ps idx next).1 s =
        if ps = [] then idx s
        else some (applyPairs ((idx s).getD (fun _ => none)) ps) := by
  induction ps with
  | nil => intro idx next; simp [processPairs]
  | cons p rest ih =>
    intro idx next
    simp only [processPairs]
    rw [ih]
    by_cases hr : rest = []
    · subst hr
      simp [indexInsert, applyPairs]
    · rw [if_neg hr, if_neg (by simp)]
      have : (indexInsert idx s p s).getD (fun _ => none) =
          applyPair ((idx s).getD (fun _ => none)) p := by
        simp [indexInsert]
      rw [this]
      rfl

/-! ## The state universe -/

theorem transGet_mem (trans : Transitions) (k : Nat × Nat) (v : Nat) :
    transGet trans k = some v → (k, v) ∈ trans := by
  induction trans with
  | nil => intro h; simp [transGet] at h
  | cons e rest ih =>
    intro h
    simp only [transGet] at h
    by_cases he : e.1 = k
    · rw [if_pos he] at h
      have hv : e.2 = v := by simpa using h
      have hkv : (k, v) = e := by
        cases e with
        | mk a b =>
          simp only at he hv
          rw [← he, ← hv]
      rw [hkv]
      exact List.mem_cons_self _ _
    · rw [if_neg he] at h
      exact List.mem_cons_of_mem _ (ih h)

theorem mem_walkAcc_mem_trans (trans : Transitions) (ks : List Nat) (s x : Nat) :
    x ∈ walkAcc trans ks s → x ∈ trans.map (fun e => e.2) := by
  induction ks generalizing s with
  | nil => intro h; simp [walkAcc] at h
  | cons k ks ih =>
    intro h
    simp only [walkAcc] at h
    cases hg : transGet trans (s, k) with
    | none => rw [hg] at h; simp at h
    | some s2 =>
      rw [hg] at h
      rw [List.mem_cons] at h
      cases h with
      | inl heq =>
        subst heq
        exact List.mem_map.mpr ⟨((s, k), x), transGet_mem trans _ _ hg, rfl⟩
      | inr hmem => exact ih s2 hmem

theorem scan_end_mem_univ (trans : Transitions) (init : Nat) (finals : List Nat)
    (vocab : Vocab) (vtk : List (List Nat)) (s : Nat) (p : Nat × Nat)
    (hs : s ∈ stateUniv trans init)
    (hp : p ∈ state_scan_tokens trans init finals vocab vtk s) :
    p.2 ∈ stateUniv trans init := by
  have hp' : (p.1, p.2) ∈ state_scan_tokens trans init finals vocab vtk s := hp
  rw [mem_state_scan_tokens] at hp'
  obtain ⟨tv, _, _, hfull, he⟩ := hp'
  rw [walk_fsm_true_eq, if_pos hfull] at he
  cases hw : walkAcc trans tv.2 s with
  | nil => rw [hw] at he; simpa [he] using hs
  | cons a l =>
    rw [hw] at he
    have hne : a :: l ≠ [] := by simp
    have hmem : p.2 ∈ a :: l := by
      rw [he, List.getLastD_eq_getLast?, List.getLast?_eq_getLast_of_ne_nil hne,
        Option.getD_some]
      exact List.getLast_mem hne
    rw [← hw] at hmem
    have := mem_walkAcc_mem_trans trans tv.2 s p.2 hmem
    exact Finset.mem_insert_of_mem (List.mem_toFinset.mpr this)

/-! ## Invariant preservation for one loop iteration -/

theorem stepInv (trans : Transitions) (init : Nat) (finals : List Nat)
    (vocab : Vocab) (vtk : List (List Nat))
    (ord : List (Nat × Nat) → List (Nat × Nat)) (ho : ValidOrd ord)
    (st : BuildState) (s : Nat) (hs : s ∈ st.next)
    (hinv : LoopInv trans init finals vocab vtk ord st)
    (st' : BuildState)
    (hst' : st' = ⟨(processPairs st.seen s
        (ord (state_scan_tokens trans init finals vocab vtk s)) st.index
        (st.next.erase s)).1,
      insert s st.seen,
      (processPairs st.seen s
        (ord (state_scan_tokens trans init finals vocab vtk s)) st.index
        (st.next.erase s)).2,
      st.scans ++ [s]⟩) :
    LoopInv trans init finals vocab vtk ord st' ∧
      buildMeasure trans init st' < buildMeasure trans init st := by
  subst hst'
  obtain ⟨h_init, h_reach, h_closed, h_idx_unseen, h_idx_seen, h_cnt_unseen,
    h_cnt_pending, h_cnt_done_loop, h_cnt_done_noloop, h_next_univ⟩ := hinv
  have hmemp : ∀ p : Nat × Nat,
      p ∈ ord (state_scan_tokens trans init finals vocab vtk s) ↔
        p ∈ state_scan_tokens trans init finals vocab vtk s := fun p => by
    rw [List.Perm.mem_iff (ho _), List.mem_dedup]
  have hnextmem := processPairs_next_mem st.seen s
    (ord (state_scan_tokens trans init finals vocab vtk s)) st.index
    (st.next.erase s)
  have hcount_self : (st.scans ++ [s]).count s = st.scans.count s + 1 := by
    rw [List.count_append]; simp
  have hcount_ne : ∀ x, x ≠ s → (st.scans ++ [s]).count x = st.scans.count x := by
    intro x hx
    have h0 : List.count x [s] = 0 := List.count_eq_zero.mpr (by simp [hx])
    rw [List.count_append, h0, Nat.add_zero]
  refine ⟨⟨?_, ?_, ?_, ?_, ?_, ?_, ?_, ?_, ?_, ?_⟩, ?_⟩
  · -- h_init
    rcases Finset.mem_union.mp h_init with hseen | hnext0
    · exact Finset.mem_union_left _ (Finset.mem_insert_of_mem hseen)
    · by_cases hi : init = s
      · rw [hi]
        exact Finset.mem_union_left _ (Finset.mem_insert_self s st.seen)
      · refine Finset.mem_union_right _ ?_
        rw [hnextmem]
        exact Or.inl (Finset.mem_erase.mpr ⟨hi, hnext0⟩)
  · -- h_reach
    intro u hu
    rcases Finset.mem_union.mp hu with hu1 | hu2
    · rcases Finset.mem_insert.mp hu1 with rfl | hu1'
      · exact h_reach u (Finset.mem_union_right _ hs)
      · exact h_reach u (Finset.mem_union_left _ hu1')
    · rw [hnextmem] at hu2
      rcases hu2 with hu2 | ⟨hu3, t, ht⟩
      · exact h_reach u (Finset.mem_union_right _ (Finset.mem_of_mem_erase hu2))
      · exact Relation.ReflTransGen.tail
          (h_reach s (Finset.mem_union_right _ hs)) ⟨t, (hmemp _).mp ht⟩
  · -- h_closed
    intro u hu p hp
    rcases Finset.mem_insert.mp hu with rfl | hu'
    · by_cases hpseen : p.2 ∈ st.seen
      · exact Finset.mem_union_left _ (Finset.mem_insert_of_mem hpseen)
      · refine Finset.mem_union_right _ ?_
        rw [hnextmem]
        exact Or.inr ⟨hpseen, p.1, (hmemp (p.1, p.2)).mpr hp⟩
    · rcases Finset.mem_union.mp (h_closed u hu' p hp) with h1 | h2
      · exact Finset.mem_union_left _ (Finset.mem_insert_of_mem h1)
      · by_cases hp2 : p.2 = s
        · rw [hp2]
          exact Finset.mem_union_left _ (Finset.mem_insert_self s st.seen)
        · refine Finset.mem_union_right _ ?_
          rw [hnextmem]
          exact Or.inl (Finset.mem_erase.mpr ⟨hp2, h2⟩)
  · -- h_idx_unseen
    intro s2 hs2
    dsimp only at hs2 ⊢
    have h1 : s2 ≠ s := fun h => hs2 (by rw [h]; exact Finset.mem_insert_self s st.seen)
    have h2 : s2 ∉ st.seen := fun h => hs2 (Finset.mem_insert_of_mem h)
    rw [processPairs_index_ne _ _ _ _ _ _ h1]
    exact h_idx_unseen s2 h2
  · -- h_idx_seen
    intro s2 hs2
    dsimp only at hs2 ⊢
    by_cases heq : s2 = s
    · subst heq
      rw [processPairs_index_self]
      by_cases hnil : ord (state_scan_tokens trans init finals vocab vtk s2) = []
      · rw [if_pos hnil]
        by_cases hseen : s2 ∈ st.seen
        · exact h_idx_seen s2 hseen
        · rw [h_idx_unseen s2 hseen, hnil]
          simp [dictOf]
      · rw [if_neg hnil]
        by_cases hseen : s2 ∈ st.seen
        · rw [h_idx_seen s2 hseen]
          simp only [dictOf, if_neg hnil]
          simp only [Option.getD_some]
          rw [applyPairs_idem]
        · rw [h_idx_unseen s2 hseen]
          simp only [dictOf, if_neg hnil]
          rfl
    · rw [processPairs_index_ne _ _ _ _ _ _ heq]
      exact h_idx_seen s2 ((Finset.mem_insert.mp hs2).resolve_left heq)
  · -- h_cnt_unseen
    intro x hx
    have h1 : x ≠ s := fun h => hx (by rw [h]; exact Finset.mem_insert_self s st.seen)
    have h2 : x ∉ st.seen := fun h => hx (Finset.mem_insert_of_mem h)
    rw [hcount_ne x h1]
    exact h_cnt_unseen x h2
  · -- h_cnt_pending
    intro x hx hxnext
    by_cases hxs : x = s
    · subst hxs
      rw [hnextmem] at hxnext
      rcases hxnext with h1 | ⟨h2, t, ht⟩
      · exact absurd (Finset.mem_erase.mp h1).1 (by simp)
      · refine ⟨⟨t, (hmemp _).mp ht⟩, ?_⟩
        rw [hcount_self, h_cnt_unseen x h2]
    · have hxseen : x ∈ st.seen := (Finset.mem_insert.mp hx).resolve_left hxs
      rw [hnextmem] at hxnext
      rcases hxnext with h1 | ⟨h2, t, ht⟩
      · obtain ⟨hedge, hcnt⟩ := h_cnt_pending x hxseen (Finset.mem_of_mem_erase h1)
        exact ⟨hedge, by rw [hcount_ne x hxs]; exact hcnt⟩
      · exact absurd hxseen h2
  · -- h_cnt_done_loop
    intro x hx hxnot hedge
    by_cases hxs : x = s
    · subst hxs
      have hseen : x ∈ st.seen := by
        by_contra hns
        apply hxnot
        rw [hnextmem]
        obtain ⟨t, ht⟩ := hedge
        exact Or.inr ⟨hns, t, (hmemp _).mpr ht⟩
      obtain ⟨_, hcnt⟩ := h_cnt_pending x hseen hs
      rw [hcount_self, hcnt]
    · have hxseen : x ∈ st.seen := (Finset.mem_insert.mp hx).resolve_left hxs
      have hxnotnext : x ∉ st.next := by
        intro hxn
        apply hxnot
        rw [hnextmem]
        exact Or.inl (Finset.mem_erase.mpr ⟨hxs, hxn⟩)
      rw [hcount_ne x hxs]
      exact h_cnt_done_loop x hxseen hxnotnext hedge
  · -- h_cnt_done_noloop
    intro x hx hxnot hnedge
    by_cases hxs : x = s
    · subst hxs
      have hnseen : x ∉ st.seen := by
        intro hseen
        exact hnedge (h_cnt_pending x hseen hs).1
      rw [hcount_self, h_cnt_unseen x hnseen]
    · have hxseen : x ∈ st.seen := (Finset.mem_insert.mp hx).resolve_left hxs
      have hxnotnext : x ∉ st.next := by
        intro hxn
        apply hxnot
        rw [hnextmem]
        exact Or.inl (Finset.mem_erase.mpr ⟨hxs, hxn⟩)
      rw [hcount_ne x hxs]
      exact h_cnt_done_noloop x hxseen hxnotnext hnedge
  · -- h_next_univ
    refine Finset.subset_iff.mpr fun u hu => ?_
    rw [hnextmem] at hu
    rcases hu with h1 | ⟨h2, t, ht⟩
    · exact h_next_univ (Finset.mem_of_mem_erase h1)
    · exact scan_end_mem_univ trans init finals vocab vtk s (t, u)
        (h_next_univ hs) ((hmemp _).mp ht)
  · -- measure decrease
    by_cases hseen : s ∈ st.seen
    · have hA : insert s st.seen = st.seen := Finset.insert_eq_self.mpr hseen
      have hB : (processPairs st.seen s
            (ord (state_scan_tokens trans init finals vocab vtk s)) st.index
            (st.next.erase s)).2 ∩ st.seen = (st.next ∩ st.seen).erase s := by
        ext x
        simp only [Finset.mem_inter, Finset.mem_erase]
        constructor
        · rintro ⟨hx2, hxseen⟩
          rw [hnextmem] at hx2
          rcases hx2 with h1 | ⟨h2, _⟩
          · obtain ⟨hxs, hxn⟩ := Finset.mem_erase.mp h1
            exact ⟨hxs, hxn, hxseen⟩
          · exact absurd hxseen h2
        · rintro ⟨hxs, hxn, hxseen⟩
          refine ⟨?_, hxseen⟩
          rw [hnextmem]
          exact Or.inl (Finset.mem_erase.mpr ⟨hxs, hxn⟩)
      have hsmem : s ∈ st.next ∩ st.seen := Finset.mem_inter.mpr ⟨hs, hseen⟩
      have hpos : 0 < (st.next ∩ st.seen).card := Finset.card_pos.mpr ⟨s, hsmem⟩
      simp only [buildMeasure]
      rw [hA, hB, Finset.card_erase_of_mem hsmem]
      omega
    · have hsU : s ∈ stateUniv trans init := h_next_univ hs
      have hA : stateUniv trans init \ insert s st.seen =
          (stateUniv trans init \ st.seen).erase s := by
        ext x
        simp only [Finset.mem_sdiff, Finset.mem_insert, Finset.mem_erase, not_or]
        tauto
      have hsmem : s ∈ stateUniv trans init \ st.seen :=
        Finset.mem_sdiff.mpr ⟨hsU, hseen⟩
      have hcardA : (stateUniv trans init \ insert s st.seen).card =
          (stateUniv trans init \ st.seen).card - 1 := by
        rw [hA, Finset.card_erase_of_mem hsmem]
      have hApos : 0 < (stateUniv trans init \ st.seen).card :=
        Finset.card_pos.mpr ⟨s, hsmem⟩
      have hBsub : (processPairs st.seen s
            (ord (state_scan_tokens trans init finals vocab vtk s)) st.index
            (st.next.erase s)).2 ∩ insert s st.seen ⊆
          insert s (st.next ∩ st.seen) := by
        refine Finset.subset_iff.mpr fun x hx => ?_
        obtain ⟨hx2, hxins⟩ := Finset.mem_inter.mp hx
        rcases Finset.mem_insert.mp hxins with rfl | hxseen
        · exact Finset.mem_insert_self _ _
        · rw [hnextmem] at hx2
          rcases hx2 with h1 | ⟨h2, _⟩
          · exact Finset.mem_insert_of_mem
              (Finset.mem_inter.mpr ⟨Finset.mem_of_mem_erase h1, hxseen⟩)
          · exact absurd hxseen h2
      have hcardB : ((processPairs st.seen s
            (ord (state_scan_tokens trans init finals vocab vtk s)) st.index
            (st.next.erase s)).2 ∩ insert s st.seen).card ≤
          (st.next ∩ st.seen).card + 1 :=
        le_trans (Finset.card_le_card hBsub) (Finset.card_insert_le _ _)
      simp only [buildMeasure]
      omega

/-! ## Running the loop -/

theorem buildLoop_some_inv (trans : Transitions) (init : Nat) (finals : List Nat)
    (vocab : Vocab) (vtk : List (List Nat)) (pick : Finset Nat → Nat)
    (ord : List (Nat × Nat) → List (Nat × Nat))
    (hp : ValidPick pick) (ho : ValidOrd ord) :
    ∀ (fuel : Nat) (st st' : BuildState),
      LoopInv trans init finals vocab vtk ord st →
      buildLoop trans init finals vocab vtk pick ord fuel st = some st' →
      LoopInv trans init finals vocab vtk ord st' ∧ st'.next = ∅ := by
  intro fuel
  induction fuel with
  | zero =>
    intro st st' hinv hrun
    simp only [buildLoop] at hrun
    by_cases h : st.next = ∅
    · rw [if_pos h] at hrun
      cases hrun
      exact ⟨hinv, h⟩
    · rw [if_neg h] at hrun
      simp at hrun
  | succ fuel ih =>
    intro st st' hinv hrun
    simp only [buildLoop] at hrun
    by_cases h : st.next = ∅
    · rw [if_pos h] at hrun
      cases hrun
      exact ⟨hinv, h⟩
    · rw [if_neg h] at hrun
      have hsmem : pick st.next ∈ st.next :=
        hp st.next (Finset.nonempty_iff_ne_empty.mpr h)
      have hstep := stepInv trans init finals vocab vtk ord ho st
        (pick st.next) hsmem hinv _ rfl
      exact ih _ st' hstep.1 hrun

theorem buildLoop_run_of_fuel (trans : Transitions) (init : Nat)
    (finals : List Nat) (vocab : Vocab) (vtk : List (List Nat))
    (pick : Finset Nat → Nat) (ord : List (Nat × Nat) → List (Nat × Nat))
    (hp : ValidPick pick) (ho : ValidOrd ord) :
    ∀ (fuel : Nat) (st : BuildState),
      LoopInv trans init finals vocab vtk ord st →
      buildMeasure trans init st ≤ fuel →
      ∃ st', buildLoop trans init finals vocab vtk pick ord fuel st = some st' := by
  intro fuel
  induction fuel with
  | zero =>
    intro st hinv hfuel
    have hempty : st.next = ∅ := by
      by_contra hne
      obtain ⟨x, hx⟩ := Finset.nonempty_iff_ne_empty.mpr hne
      by_cases hxs : x ∈ st.seen
      · have hc : 0 < (st.next ∩ st.seen).card :=
          Finset.card_pos.mpr ⟨x, Finset.mem_inter.mpr ⟨hx, hxs⟩⟩
        simp only [buildMeasure] at hfuel
        omega
      · have hxU : x ∈ stateUniv trans init := hinv.h_next_univ hx
        have hc : 0 < (stateUniv trans init \ st.seen).card :=
          Finset.card_pos.mpr ⟨x, Finset.mem_sdiff.mpr ⟨hxU, hxs⟩⟩
        simp only [buildMeasure] at hfuel
        omega
    exact ⟨st, by simp [buildLoop, hempty]⟩
  | succ fuel ih =>
    intro st hinv hfuel
    by_cases h : st.next = ∅
    · exact ⟨st, by simp [buildLoop, h]⟩
    · have hsmem : pick st.next ∈ st.next :=
        hp st.next (Finset.nonempty_iff_ne_empty.mpr h)
      obtain ⟨hinv', hdec⟩ := stepInv trans init finals vocab vtk ord ho st
        (pick st.next) hsmem hinv _ rfl
      obtain ⟨st', hst'⟩ := ih _ hinv' (by omega)
      refine ⟨st', ?_⟩
      simp only [buildLoop]
      rw [if_neg h]
      exact hst'

theorem initInv (trans : Transitions) (init : Nat) (finals : List Nat)
    (vocab : Vocab) (vtk : List (List Nat))
    (ord : List (Nat × Nat) → List (Nat × Nat)) :
    LoopInv trans init finals vocab vtk ord ⟨fun _ => none, ∅, {init}, []⟩ := by
  refine ⟨?_, ?_, ?_, ?_, ?_, ?_, ?_, ?_, ?_, ?_⟩
  · simp
  · intro u hu
    dsimp only at hu
    simp only [Finset.empty_union, Finset.mem_singleton] at hu
    subst hu
    exact Relation.ReflTransGen.refl
  · intro u hu _ _
    dsimp only at hu
    simp at hu
  · intro s _
    rfl
  · intro s hsmem
    dsimp only at hsmem
    simp at hsmem
  · intro x _
    simp
  · intro x hx
    dsimp only at hx
    simp at hx
  · intro x hx
    dsimp only at hx
    simp at hx
  · intro x hx
    dsimp only at hx
    simp at hx
  · refine Finset.subset_iff.mpr fun u hu => ?_
    dsimp only at hu
    simp only [Finset.mem_singleton] at hu
    subst hu
    exact Finset.mem_insert_self _ _

/-- Characterization of any completed run of the index build: the seen set
is exactly the reachable set, the index is the per-state dict of the ordered
scan results on reachable states and empty elsewhere, and every reachable
state was scanned once — twice when its own scan loops back to it. -/
theorem create_some_spec (fsm_info : FSMInfo) (vocabulary : Vocab)
    (frozen_tokens : List (List Char)) (pick : Finset Nat → Nat)
    (ord : List (Nat × Nat) → List (Nat × Nat)) (fuel : Nat) (st : BuildState)
    (hp : ValidPick pick) (ho : ValidOrd ord)
    (hrun : create_fsm_index_end_to_end fsm_info vocabulary frozen_tokens
      pick ord fuel = some st) :
    st.next = ∅
    ∧ (∀ s, infoReach fsm_info vocabulary frozen_tokens s ↔ s ∈ st.seen)
    ∧ (∀ s, infoReach fsm_info vocabulary frozen_tokens s →
        st.index s = dictOf (ord (infoScan fsm_info vocabulary frozen_tokens s)))
    ∧ (∀ s, ¬ infoReach fsm_info vocabulary frozen_tokens s → st.index s = none)
    ∧ (∀ s, infoReach fsm_info vocabulary frozen_tokens s →
        infoEdge fsm_info vocabulary frozen_tokens s s → st.scans.count s = 2)
    ∧ (∀ s, infoReach fsm_info vocabulary frozen_tokens s →
        ¬ infoEdge fsm_info vocabulary frozen_tokens s s → st.scans.count s = 1)
    ∧ (∀ s, ¬ infoReach fsm_info vocabulary frozen_tokens s →
        st.scans.count s = 0) := by
  have hinv0 := initInv fsm_info.transitions fsm_info.initial fsm_info.finals
    vocabulary (infoVtk fsm_info vocabulary frozen_tokens) ord
  have hrun' : buildLoop fsm_info.transitions fsm_info.initial fsm_info.finals
      vocabulary (infoVtk fsm_info vocabulary frozen_tokens) pick ord fuel
      ⟨fun _ => none, ∅, {fsm_info.initial}, []⟩ = some st := hrun
  obtain ⟨hinv, hempty⟩ := buildLoop_some_inv fsm_info.transitions
    fsm_info.initial fsm_info.finals vocabulary
    (infoVtk fsm_info vocabulary frozen_tokens) pick ord hp ho fuel _ st
    hinv0 hrun'
  have hseen_of_reach : ∀ s, infoReach fsm_info vocabulary frozen_tokens s →
      s ∈ st.seen := by
    intro s hr
    induction hr with
    | refl =>
      have h0 := hinv.h_init
      rw [hempty, Finset.union_empty] at h0
      exact h0
    | tail hab hbc ih =>
      obtain ⟨t, ht⟩ := hbc
      have h0 := hinv.h_closed _ ih (t, _) ht
      rw [hempty, Finset.union_empty] at h0
      exact h0
  have hreach_of_seen : ∀ s, s ∈ st.seen →
      infoReach fsm_info vocabulary frozen_tokens s := by
    intro s hsmem
    exact hinv.h_reach s (Finset.mem_union_left _ hsmem)
  refine ⟨hempty, fun s => ⟨hseen_of_reach s, hreach_of_seen s⟩, ?_, ?_, ?_, ?_, ?_⟩
  · intro s hr
    exact hinv.h_idx_seen s (hseen_of_reach s hr)
  · intro s hr
    refine hinv.h_idx_unseen s fun hsmem => hr (hreach_of_seen s hsmem)
  · intro s hr hedge
    refine hinv.h_cnt_done_loop s (hseen_of_reach s hr) ?_ hedge
    rw [hempty]
    exact Finset.not_mem_empty s
  · intro s hr hnedge
    refine hinv.h_cnt_done_noloop s (hseen_of_reach s hr) ?_ hnedge
    rw [hempty]
    exact Finset.not_mem_empty s
  · intro s hr
    refine hinv.h_cnt_unseen s fun hsmem => hr (hreach_of_seen s hsmem)

/-- With fuel at least twice the size of the state universe, the index
build's queue empties and the build returns a result. -/
theorem create_isSome_of_fuel (fsm_info : FSMInfo) (vocabulary : Vocab)
    (frozen_tokens : List (List Char)) (pick : Finset Nat → Nat)
    (ord : List (Nat × Nat) → List (Nat × Nat)) (fuel : Nat)
    (hp : ValidPick pick) (ho : ValidOrd ord)
    (hfuel : 2 * (stateUniv fsm_info.transitions fsm_info.initial).card ≤ fuel) :
    ∃ st, create_fsm_index_end_to_end fsm_info vocabulary frozen_tokens
      pick ord fuel = some st := by
  have hinv0 := initInv fsm_info.transitions fsm_info.initial fsm_info.finals
    vocabulary (infoVtk fsm_info vocabulary frozen_tokens) ord
  have hmeas0 : buildMeasure fsm_info.transitions fsm_info.initial
      ⟨fun _ => none, ∅, {fsm_info.initial}, []⟩ ≤ fuel := by
    simp only [buildMeasure]
    rw [Finset.sdiff_empty, Finset.inter_empty]
    simpa using hfuel
  obtain ⟨st, hst⟩ := buildLoop_run_of_fuel fsm_info.transitions
    fsm_info.initial fsm_info.finals vocabulary
    (infoVtk fsm_info vocabulary frozen_tokens) pick ord hp ho fuel _
    hinv0 hmeas0
  exact ⟨st, hst⟩

theorem opt_eq_some_getD {α : Type} (o : Option α) (d : α) (h : o.isSome = true) :
    o = some (o.getD d) := by
  cases o with
  | none => simp at h
  | some a => rfl

/-! ## The index-build loop: scan counts (C1) -/

/-- C1 counterexample: on the self-loop automaton (token `a` maps state 0
back to itself), the build passes the reachable initial state 0 to the
vocabulary scan twice — the scan log is `[0, 0]`. -/
theorem create_fsm_index_double_scan_counterexample :
    c1run.map BuildState.scans = some [0, 0] ∧ ([0, 0] : List Nat).count 0 = 2 := by
  constructor
  · decide
  · decide

/-- C1 (amended): with fuel at least twice the size of the state universe
the index build terminates, and in the completed run every state reachable
from the initial state via vocabulary-token transitions is passed to the
vocabulary scan at least once: exactly twice when its own scan emits a
transition looping back to itself, exactly once otherwise.  Unreachable
states are never scanned. -/
theorem create_fsm_index_terminates_scan_counts
    (fsm_info : FSMInfo) (vocabulary : Vocab) (frozen_tokens : List (List Char))
    (pick : Finset Nat → Nat) (ord : List (Nat × Nat) → List (Nat × Nat))
    (fuel : Nat) (hp : ValidPick pick) (ho : ValidOrd ord)
    (hfuel : 2 * (stateUniv fsm_info.transitions fsm_info.initial).card ≤ fuel) :
    ∃ st, create_fsm_index_end_to_end fsm_info vocabulary frozen_tokens
        pick ord fuel = some st ∧
      (∀ s, infoReach fsm_info vocabulary frozen_tokens s →
        infoEdge fsm_info vocabulary frozen_tokens s s → st.scans.count s = 2) ∧
      (∀ s, infoReach fsm_info vocabulary frozen_tokens s →
        ¬ infoEdge fsm_info vocabulary frozen_tokens s s → st.scans.count s = 1) ∧
      (∀ s, ¬ infoReach fsm_info vocabulary frozen_tokens s →
        st.scans.count s = 0) := by
  obtain ⟨st, hst⟩ := create_isSome_of_fuel fsm_info vocabulary frozen_tokens
    pick ord fuel hp ho hfuel
  obtain ⟨-, -, -, -, h2, h1, h0⟩ := create_some_spec fsm_info vocabulary
    frozen_tokens pick ord fuel st hp ho hst
  exact ⟨st, hst, h2, h1, h0⟩

/-- Witness for the amended C1 at the self-loop input. -/
theorem create_fsm_index_terminates_scan_counts_witness :
    ∃ st, create_fsm_index_end_to_end c1Info c1Vocab [] pickArb ordId 8 = some st ∧
      (∀ s, infoReach c1Info c1Vocab [] s →
        infoEdge c1Info c1Vocab [] s s → st.scans.count s = 2) ∧
      (∀ s, infoReach c1Info c1Vocab [] s →
        ¬ infoEdge c1Info c1Vocab [] s s → st.scans.count s = 1) ∧
      (∀ s, ¬ infoReach c1Info c1Vocab [] s → st.scans.count s = 0) :=
  create_fsm_index_terminates_scan_counts c1Info c1Vocab [] pickArb ordId 8
    validPick_pickArb validOrd_ordId (by decide)

/-! ## Determinism of the index build (C2) -/

/-- C2 counterexample: on identical inputs (token id 10 shared between texts
`a` and `b` with different end states), two valid scan-iteration orders
yield different mappings — the entry for (state 0, token 10) is 2 under
first-occurrence order and 1 under reversed order, and both runs complete. -/
theorem create_fsm_index_order_counterexample :
    indexVal c2run1 0 10 = some 2 ∧ indexVal c2run2 0 10 = some 1 ∧
      c2run1.isSome = true ∧ c2run2.isSome = true := by
  refine ⟨?_, ?_, ?_, ?_⟩ <;> decide

/-- C2 (amended): two completed runs of the index build on identical
(descriptor, vocabulary, frozen-tokens) inputs produce identical
state→token→state mappings whenever the scan-result iteration order is the
same — in particular the frontier-processing order and the fuel never affect
the result — and, across different scan-result iteration orders, whenever no
(state, token) pair admits two distinct end states. -/
theorem create_fsm_index_deterministic
    (fsm_info : FSMInfo) (vocabulary : Vocab) (frozen_tokens : List (List Char))
    (pick₁ pick₂ : Finset Nat → Nat)
    (ord₁ ord₂ : List (Nat × Nat) → List (Nat × Nat))
    (fuel₁ fuel₂ : Nat) (st₁ st₂ : BuildState)
    (hp₁ : ValidPick pick₁) (ho₁ : ValidOrd ord₁)
    (hp₂ : ValidPick pick₂) (ho₂ : ValidOrd ord₂)
    (hrun₁ : create_fsm_index_end_to_end fsm_info vocabulary frozen_tokens
      pick₁ ord₁ fuel₁ = some st₁)
    (hrun₂ : create_fsm_index_end_to_end fsm_info vocabulary frozen_tokens
      pick₂ ord₂ fuel₂ = some st₂)
    (hdet : ord₁ = ord₂ ∨
      ∀ s t e e', (t, e) ∈ infoScan fsm_info vocabulary frozen_tokens s →
        (t, e') ∈ infoScan fsm_info vocabulary frozen_tokens s → e = e') :
    st₁.index = st₂.index := by
  obtain ⟨-, -, hidx₁, hnone₁, -, -, -⟩ := create_some_spec fsm_info vocabulary
    frozen_tokens pick₁ ord₁ fuel₁ st₁ hp₁ ho₁ hrun₁
  obtain ⟨-, -, hidx₂, hnone₂, -, -, -⟩ := create_some_spec fsm_info vocabulary
    frozen_tokens pick₂ ord₂ fuel₂ st₂ hp₂ ho₂ hrun₂
  funext s
  by_cases hr : infoReach fsm_info vocabulary frozen_tokens s
  · rw [hidx₁ s hr, hidx₂ s hr]
    rcases hdet with rfl | huniq
    · rfl
    · have hperm : (ord₁ (infoScan fsm_info vocabulary frozen_tokens s)).Perm
          (ord₂ (infoScan fsm_info vocabulary frozen_tokens s)) :=
        (ho₁ _).trans (ho₂ _).symm
      simp only [dictOf]
      by_cases hnil : ord₁ (infoScan fsm_info vocabulary frozen_tokens s) = []
      · have hnil₂ : ord₂ (infoScan fsm_info vocabulary frozen_tokens s) = [] := by
          rw [hnil] at hperm
          exact hperm.symm.eq_nil
        rw [if_pos hnil, if_pos hnil₂]
      · have hnil₂ : ord₂ (infoScan fsm_info vocabulary frozen_tokens s) ≠ [] := by
          intro h
          rw [h] at hperm
          exact hnil hperm.eq_nil
        rw [if_neg hnil, if_neg hnil₂]
        congr 1
        refine applyPairs_perm_unique _ _ _ hperm ?_
        intro t e e' he he'
        refine huniq s t e e' ?_ ?_
        · have h1 := (ho₁ _).mem_iff.mp he
          rwa [List.mem_dedup] at h1
        · have h2 := (ho₁ _).mem_iff.mp he'
          rwa [List.mem_dedup] at h2
  · rw [hnone₁ s hr, hnone₂ s hr]

/-- Witness for the amended C2: the concrete-scenario build run with the
same scan order at two different fuels yields the same index. -/
theorem create_fsm_index_deterministic_witness :
    c6st.index =
      ((create_fsm_index_end_to_end c6Info c6Vocab [] pickArb ordId 9).getD
        emptyBuildState).index :=
  create_fsm_index_deterministic c6Info c6Vocab [] pickArb pickArb ordId ordId
    8 9 c6st
    ((create_fsm_index_end_to_end c6Info c6Vocab [] pickArb ordId 9).getD
      emptyBuildState)
    validPick_pickArb validOrd_ordId validPick_pickArb validOrd_ordId
    (opt_eq_some_getD _ _ (by decide)) (opt_eq_some_getD _ _ (by decide))
    (Or.inl rfl)

/-! ## Round-trip consistency of the index (C3) -/

/-- C3: for every (state `s`, token id `t`, end state `e`) triple recorded
in a completed index build, and any vocabulary entry carrying `t` — under
the premise that all entries carrying `t` were assigned the same transition
keys, so that "t's transition-key sequence" is well defined — re-running the
automaton walk from `s` with those keys and `full_match = true` returns a
non-empty sequence whose final element is `e`, or the key sequence is empty
and `e` equals `s`. -/
theorem create_fsm_index_round_trip
    (fsm_info : FSMInfo) (vocabulary : Vocab) (frozen_tokens : List (List Char))
    (pick : Finset Nat → Nat) (ord : List (Nat × Nat) → List (Nat × Nat))
    (fuel : Nat) (st : BuildState) (s t e : Nat) (d : Nat → Option Nat)
    (hp : ValidPick pick) (ho : ValidOrd ord)
    (hrun : create_fsm_index_end_to_end fsm_info vocabulary frozen_tokens
      pick ord fuel = some st)
    (hd : st.index s = some d) (hde : d t = some e)
    (hkeys : ∀ p ∈ vocabulary.zip (infoVtk fsm_info vocabulary frozen_tokens),
      ∀ q ∈ vocabulary.zip (infoVtk fsm_info vocabulary frozen_tokens),
      t ∈ p.1.2 → t ∈ q.1.2 → p.2 = q.2) :
    ∀ tok ids keys,
      ((tok, ids), keys) ∈ vocabulary.zip (infoVtk fsm_info vocabulary frozen_tokens) →
      t ∈ ids →
      ((walk_fsm fsm_info.transitions fsm_info.initial fsm_info.finals keys s true ≠ [] ∧
          (walk_fsm fsm_info.transitions fsm_info.initial fsm_info.finals keys s true).getLast? =
            some e)
        ∨ (keys = [] ∧ e = s)) := by
  obtain ⟨-, -, hidx, hnone, -, -, -⟩ := create_some_spec fsm_info vocabulary
    frozen_tokens pick ord fuel st hp ho hrun
  have hr : infoReach fsm_info vocabulary frozen_tokens s := by
    by_contra hnr
    rw [hnone s hnr] at hd
    exact Option.noConfusion hd
  have hds := hidx s hr
  rw [hd] at hds
  simp only [dictOf] at hds
  by_cases hnil : ord (infoScan fsm_info vocabulary frozen_tokens s) = []
  · rw [if_pos hnil] at hds
    exact Option.noConfusion hds
  · rw [if_neg hnil] at hds
    have hdeq : d = applyPairs (fun _ => none)
        (ord (infoScan fsm_info vocabulary frozen_tokens s)) := by
      injection hds
    have hmem : (t, e) ∈ ord (infoScan fsm_info vocabulary frozen_tokens s) := by
      rcases applyPairs_eq_some _ _ t e (by rw [← hdeq]; exact hde) with h | h
      · exact h
      · exact Option.noConfusion h
    have hmem' : (t, e) ∈ infoScan fsm_info vocabulary frozen_tokens s := by
      have h1 := (ho _).mem_iff.mp hmem
      rwa [List.mem_dedup] at h1
    have hchar := (mem_state_scan_tokens fsm_info.transitions fsm_info.initial
      fsm_info.finals vocabulary (infoVtk fsm_info vocabulary frozen_tokens)
      s t e).mp hmem'
    obtain ⟨tv, htv, htid, hfull, he⟩ := hchar
    intro tok ids keys hzip htin
    have hk : keys = tv.2 := hkeys ((tok, ids), keys) hzip tv htv htin htid
    subst hk
    by_cases hknil : tv.2 = []
    · refine Or.inr ⟨hknil, ?_⟩
      rw [he, hknil]
      simp [walk_fsm, walkAcc]
    · refine Or.inl ?_
      have hw : walk_fsm fsm_info.transitions fsm_info.initial fsm_info.finals
          tv.2 s true = walkAcc fsm_info.transitions tv.2 s := by
        rw [walk_fsm_true_eq, if_pos hfull]
      have hlen0 : walkAcc fsm_info.transitions tv.2 s ≠ [] := by
        intro h0
        rw [h0] at hfull
        exact hknil (List.length_eq_zero.mp hfull.symm)
      rw [hw] at he ⊢
      refine ⟨hlen0, ?_⟩
      rw [he]
      simp [List.getLastD_eq_getLast?, List.getLast?_eq_getLast_of_ne_nil hlen0]

/-- Witness for C3: in the concrete scenario's built index, the recorded
triple (0, 10, 1) round-trips through the walk with token `a`'s keys. -/
theorem create_fsm_index_round_trip_witness :
    (walk_fsm c6Info.transitions c6Info.initial c6Info.finals [5] 0 true ≠ [] ∧
        (walk_fsm c6Info.transitions c6Info.initial c6Info.finals [5] 0 true).getLast? =
          some 1)
      ∨ ([5] = ([] : List Nat) ∧ 1 = 0) :=
  create_fsm_index_round_trip c6Info c6Vocab [] pickArb ordId 8 c6st 0 10 1
    ((c6st.index 0).getD (fun _ => none))
    validPick_pickArb validOrd_ordId
    (opt_eq_some_getD _ _ (by decide))
    (opt_eq_some_getD _ _ (by decide))
    (by decide)
    (by decide)
    (['a']) [10] [5] (by decide) (by decide)

/-! ## The concrete scenario (C6) -/

/-- C6: for the concrete input — automaton with states `{0, 1}`, finals
`{1}`, transitions `{(0, key_a) ↦ 1}`, anything value 99, symbol mapping
`{"a" ↦ key_a}` (with `key_a` a proper symbol key, distinct from the
anything value), vocabulary `[("a", [10]), ("b", [11])]`, no frozen tokens —
any completed index build returns exactly the mapping `{0: {10: 1}}`:
token id 10 maps state 0 to state 1 and token id 11 appears nowhere. -/
theorem create_fsm_index_concrete_scenario
    (key_a : Nat) (hka : key_a ≠ 99)
    (pick : Finset Nat → Nat) (ord : List (Nat × Nat) → List (Nat × Nat))
    (fuel : Nat) (st : BuildState)
    (hp : ValidPick pick) (ho : ValidOrd ord)
    (hrun : create_fsm_index_end_to_end
      (FSMInfo.new 0 [1] [((0, key_a), 1)] 99 [(['a'], key_a)])
      [(['a'], [10]), (['b'], [11])] [] pick ord fuel = some st) :
    st.index = fun s =>
      if s = 0 then some (fun t => if t = 10 then some 1 else none) else none := by
  obtain ⟨-, -, hidx, hnone, -, -, -⟩ := create_some_spec _ _ _ pick ord fuel st
    hp ho hrun
  have hta : transGet [((0, key_a), 1)] (0, key_a) = some 1 := by
    simp [transGet]
  have htb : transGet [((0, key_a), 1)] (0, 99) = none := by
    simp [transGet, Prod.ext_iff, hka]
  have ht1a : transGet [((0, key_a), 1)] (1, key_a) = none := by
    simp [transGet, Prod.ext_iff]
  have ht1b : transGet [((0, key_a), 1)] (1, 99) = none := by
    simp [transGet, Prod.ext_iff]
  have hwa0 : walkAcc [((0, key_a), 1)] [key_a] 0 = [1] := by
    simp [walkAcc, hta]
  have hwb0 : walkAcc [((0, key_a), 1)] [99] 0 = [] := by
    simp [walkAcc, htb]
  have hwa1 : walkAcc [((0, key_a), 1)] [key_a] 1 = [] := by
    simp [walkAcc, ht1a]
  have hwb1 : walkAcc [((0, key_a), 1)] [99] 1 = [] := by
    simp [walkAcc, ht1b]
  have hscan0 : infoScan (FSMInfo.new 0 [1] [((0, key_a), 1)] 99 [(['a'], key_a)])
      [(['a'], [10]), (['b'], [11])] [] 0 = [(10, 1)] := by
    show state_scan_tokens [((0, key_a), 1)] 0 [1] [(['a'], [10]), (['b'], [11])]
      [[key_a], [99]] 0 = [(10, 1)]
    simp [state_scan_tokens, walk_fsm_true_eq, hwa0, hwb0, List.dedup_cons_of_not_mem]
  have hscan1 : infoScan (FSMInfo.new 0 [1] [((0, key_a), 1)] 99 [(['a'], key_a)])
      [(['a'], [10]), (['b'], [11])] [] 1 = [] := by
    show state_scan_tokens [((0, key_a), 1)] 0 [1] [(['a'], [10]), (['b'], [11])]
      [[key_a], [99]] 1 = []
    simp [state_scan_tokens, walk_fsm_true_eq, hwa1, hwb1]
  have hR0 : infoReach (FSMInfo.new 0 [1] [((0, key_a), 1)] 99 [(['a'], key_a)])
      [(['a'], [10]), (['b'], [11])] [] 0 := Relation.ReflTransGen.refl
  have hR1 : infoReach (FSMInfo.new 0 [1] [((0, key_a), 1)] 99 [(['a'], key_a)])
      [(['a'], [10]), (['b'], [11])] [] 1 := by
    refine Relation.ReflTransGen.single ⟨10, ?_⟩
    show (10, 1) ∈ infoScan (FSMInfo.new 0 [1] [((0, key_a), 1)] 99
      [(['a'], key_a)]) [(['a'], [10]), (['b'], [11])] [] 0
    rw [hscan0]
    exact List.mem_cons_self _ _
  have hRsub : ∀ s,
      infoReach (FSMInfo.new 0 [1] [((0, key_a), 1)] 99 [(['a'], key_a)])
        [(['a'], [10]), (['b'], [11])] [] s → s = 0 ∨ s = 1 := by
    intro s hr
    induction hr with
    | refl => exact Or.inl rfl
    | tail hab hbc ih =>
      obtain ⟨t, ht⟩ := hbc
      rcases ih with rfl | rfl
      · rw [hscan0] at ht
        simp at ht
        exact Or.inr ht.2
      · rw [hscan1] at ht
        simp at ht
  funext s
  by_cases h0 : s = 0
  · subst h0
    rw [if_pos rfl, hidx 0 hR0]
    have hord0 : ord (infoScan (FSMInfo.new 0 [1] [((0, key_a), 1)] 99
        [(['a'], key_a)]) [(['a'], [10]), (['b'], [11])] [] 0) = [(10, 1)] := by
      rw [hscan0]
      have hperm := ho [(10, 1)]
      have hded : ([(10, 1)] : List (Nat × Nat)).dedup = [(10, 1)] := by decide
      rw [hded] at hperm
      exact List.perm_singleton.mp hperm
    rw [hord0]
    simp only [dictOf, if_neg (List.cons_ne_nil _ _)]
    congr 1
  · rw [if_neg h0]
    by_cases h1 : s = 1
    · subst h1
      rw [hidx 1 hR1]
      have hord1 : ord (infoScan (FSMInfo.new 0 [1] [((0, key_a), 1)] 99
          [(['a'], key_a)]) [(['a'], [10]), (['b'], [11])] [] 1) = [] := by
        rw [hscan1]
        exact (ho []).eq_nil
      rw [hord1]
      simp [dictOf]
    · have hnr : ¬ infoReach (FSMInfo.new 0 [1] [((0, key_a), 1)] 99
          [(['a'], key_a)]) [(['a'], [10]), (['b'], [11])] [] s := by
        intro hr
        rcases hRsub s hr with rfl | rfl
        · exact h0 rfl
        · exact h1 rfl
      exact hnone s hnr

/-- Witness for C6 at `key_a = 5` with the concrete order choices. -/
theorem create_fsm_index_concrete_scenario_witness :
    c6st.index = fun s =>
      if s = 0 then some (fun t => if t = 10 then some 1 else none) else none :=
  create_fsm_index_concrete_scenario 5 (by decide) pickArb ordId 8 c6st
    validPick_pickArb validOrd_ordId (opt_eq_some_getD _ _ (by decide))

/-! ## Reachability of index keys (C8) -/

/-- C8 (amended): every state id appearing as a key of a completed index
build is reachable from the initial state via scan-emitted vocabulary-token
transitions; and whenever no (state, token) pair admits two distinct end
states — e.g. when no token id is shared between distinct vocabulary texts —
it is reachable via the token transitions recorded in the index itself. -/
theorem create_fsm_index_keys_reachable
    (fsm_info : FSMInfo) (vocabulary : Vocab) (frozen_tokens : List (List Char))
    (pick : Finset Nat → Nat) (ord : List (Nat × Nat) → List (Nat × Nat))
    (fuel : Nat) (st : BuildState)
    (hp : ValidPick pick) (ho : ValidOrd ord)
    (hrun : create_fsm_index_end_to_end fsm_info vocabulary frozen_tokens
      pick ord fuel = some st) :
    ∀ s, (st.index s).isSome = true →
      infoReach fsm_info vocabulary frozen_tokens s ∧
      ((∀ s' t e e', (t, e) ∈ infoScan fsm_info vocabulary frozen_tokens s' →
          (t, e') ∈ infoScan fsm_info vocabulary frozen_tokens s' → e = e') →
        Relation.ReflTransGen (indexEdge st.index) fsm_info.initial s) := by
  obtain ⟨-, -, hidx, hnone, -, -, -⟩ := create_some_spec fsm_info vocabulary
    frozen_tokens pick ord fuel st hp ho hrun
  intro s hsome
  have hr : infoReach fsm_info vocabulary frozen_tokens s := by
    by_contra hnr
    rw [hnone s hnr] at hsome
    simp at hsome
  refine ⟨hr, fun huniq => ?_⟩
  clear hsome
  induction hr with
  | refl => exact Relation.ReflTransGen.refl
  | @tail b c hab hbc ih =>
    refine Relation.ReflTransGen.tail ih ?_
    obtain ⟨t, ht⟩ := hbc
    have hib := hidx b hab
    have hmemord : (t, c) ∈ ord (infoScan fsm_info vocabulary frozen_tokens b) := by
      rw [(ho _).mem_iff, List.mem_dedup]
      exact ht
    have hnil : ord (infoScan fsm_info vocabulary frozen_tokens b) ≠ [] := by
      intro h
      rw [h] at hmemord
      exact (List.not_mem_nil _) hmemord
    simp only [dictOf, if_neg hnil] at hib
    have hsome2 := applyPairs_isSome_of_mem (fun _ => none) _ t c hmemord
    obtain ⟨e', he'⟩ := Option.isSome_iff_exists.mp hsome2
    have hmem2 : (t, e') ∈ ord (infoScan fsm_info vocabulary frozen_tokens b) := by
      rcases applyPairs_eq_some _ _ t e' he' with h | h
      · exact h
      · exact Option.noConfusion h
    have hmem2' : (t, e') ∈ infoScan fsm_info vocabulary frozen_tokens b := by
      have h2 := (ho _).mem_iff.mp hmem2
      rwa [List.mem_dedup] at h2
    have hec : e' = c := huniq b t e' c hmem2' ht
    subst hec
    exact ⟨t, applyPairs (fun _ => none)
      (ord (infoScan fsm_info vocabulary frozen_tokens b)), hib, he'⟩

/-- Witness for the amended C8 at the concrete scenario's index key 0. -/
theorem create_fsm_index_keys_reachable_witness :
    infoReach c6Info c6Vocab [] 0 ∧
      ((∀ s' t e e', (t, e) ∈ infoScan c6Info c6Vocab [] s' →
          (t, e') ∈ infoScan c6Info c6Vocab [] s' → e = e') →
        Relation.ReflTransGen (indexEdge c6st.index) c6Info.initial 0) :=
  create_fsm_index_keys_reachable c6Info c6Vocab [] pickArb ordId 8 c6st
    validPick_pickArb validOrd_ordId (opt_eq_some_getD _ _ (by decide)) 0
    (by decide)

/-- C8 counterexample: in the hidden-route build (token id 10 shared by the
texts `a` and `b`, and first-occurrence scan order recording `10 ↦ 2` at
state 0), state 1 appears as an index key but is not reachable from the
initial state 0 by any sequence of token transitions recorded in the
index. -/
theorem create_fsm_index_unreachable_key_counterexample :
    (c8idx 1).isSome = true ∧
      ¬ Relation.ReflTransGen (indexEdge c8idx) 0 1 := by
  constructor
  · decide
  · have hrun : c8run = some (c8run.getD emptyBuildState) :=
      opt_eq_some_getD _ _ (by decide)
    obtain ⟨-, -, hidx, hnone, -, -, -⟩ := create_some_spec c8Info c8Vocab []
      pickArb ordId 8 _ validPick_pickArb validOrd_ordId hrun
    have hscan0 : infoScan c8Info c8Vocab [] 0 = [(10, 1), (10, 2)] := by decide
    have hscan1 : infoScan c8Info c8Vocab [] 1 = [(11, 3)] := by decide
    have hscan2 : infoScan c8Info c8Vocab [] 2 = [] := by decide
    have hscan3 : infoScan c8Info c8Vocab [] 3 = [] := by decide
    have hRsub : ∀ a, infoReach c8Info c8Vocab [] a →
        a = 0 ∨ a = 1 ∨ a = 2 ∨ a = 3 := by
      intro a hr
      induction hr with
      | refl => exact Or.inl rfl
      | @tail b c hab hbc ih =>
        obtain ⟨t, ht⟩ := hbc
        rcases ih with rfl | rfl | rfl | rfl
        · rw [hscan0] at ht
          simp at ht
          rcases ht with ⟨-, rfl⟩ | ⟨-, rfl⟩
          · exact Or.inr (Or.inl rfl)
          · exact Or.inr (Or.inr (Or.inl rfl))
        · rw [hscan1] at ht
          simp at ht
          exact Or.inr (Or.inr (Or.inr ht.2))
        · rw [hscan2] at ht
          simp at ht
        · rw [hscan3] at ht
          simp at ht
    have hd0 : ∀ t b, applyPairs (fun _ => none)
        [((10 : Nat), (1 : Nat)), (10, 2)] t = some b → t = 10 ∧ b = 2 := by
      intro t b h
      rw [applyPairs_apply] at h
      by_cases ht : t = 10
      · subst ht
        have hf : List.filter (fun q => q.1 == (10 : Nat))
            [((10 : Nat), (1 : Nat)), (10, 2)] = [(10, 1), (10, 2)] := by decide
        rw [hf] at h
        have hgl : ([((10 : Nat), (1 : Nat)), (10, 2)]).getLast? = some (10, 2) := by decide
        rw [hgl] at h
        simp at h
        exact ⟨rfl, h.symm⟩
      · have hb : ((10 : Nat) == t) = false := by
          rw [beq_eq_false_iff_ne]
          exact Ne.symm ht
        have hf : List.filter (fun q => q.1 == t)
            [((10 : Nat), (1 : Nat)), (10, 2)] = [] := by
          simp [List.filter, hb]
        rw [hf] at h
        simp at h
    have hd1 : ∀ t b, applyPairs (fun _ => none)
        [((11 : Nat), (3 : Nat))] t = some b → t = 11 ∧ b = 3 := by
      intro t b h
      rw [applyPairs_apply] at h
      by_cases ht : t = 11
      · subst ht
        have hf : List.filter (fun q => q.1 == (11 : Nat)) [((11 : Nat), (3 : Nat))] =
            [(11, 3)] := by decide
        rw [hf] at h
        simp at h
        exact ⟨rfl, h.symm⟩
      · have hb : ((11 : Nat) == t) = false := by
          rw [beq_eq_false_iff_ne]
          exact Ne.symm ht
        have hf : List.filter (fun q => q.1 == t) [((11 : Nat), (3 : Nat))] = [] := by
          simp [List.filter, hb]
        rw [hf] at h
        simp at h
    have hedge : ∀ a b, indexEdge c8idx a b →
        (a = 0 ∧ b = 2) ∨ (a = 1 ∧ b = 3) := by
      rintro a b ⟨t, d, hia, hdb⟩
      have hia2 : (c8run.getD emptyBuildState).index a = some d := hia
      have hra : infoReach c8Info c8Vocab [] a := by
        by_contra hnr
        rw [hnone a hnr] at hia2
        exact Option.noConfusion hia2
      have hia' : dictOf (ordId (infoScan c8Info c8Vocab [] a)) = some d :=
        (hidx a hra).symm.trans hia2
      rcases hRsub a hra with rfl | rfl | rfl | rfl
      · rw [hscan0] at hia'
        have hord : ordId [((10 : Nat), (1 : Nat)), (10, 2)] =
            [(10, 1), (10, 2)] := by decide
        rw [hord] at hia'
        have hdict : dictOf [((10 : Nat), (1 : Nat)), (10, 2)] =
            some (applyPairs (fun _ => none) [(10, 1), (10, 2)]) := by
          simp [dictOf]
        rw [hdict] at hia'
        have hd : applyPairs (fun _ => none) [((10 : Nat), (1 : Nat)), (10, 2)] = d := by
          injection hia'
        rw [← hd] at hdb
        exact Or.inl ⟨rfl, (hd0 t b hdb).2⟩
      · rw [hscan1] at hia'
        have hord : ordId [((11 : Nat), (3 : Nat))] = [(11, 3)] := by decide
        rw [hord] at hia'
        have hdict : dictOf [((11 : Nat), (3 : Nat))] =
            some (applyPairs (fun _ => none) [(11, 3)]) := by
          simp [dictOf]
        rw [hdict] at hia'
        have hd : applyPairs (fun _ => none) [((11 : Nat), (3 : Nat))] = d := by
          injection hia'
        rw [← hd] at hdb
        exact Or.inr ⟨rfl, (hd1 t b hdb).2⟩
      · rw [hscan2] at hia'
        have hord : ordId ([] : List (Nat × Nat)) = [] := by decide
        rw [hord] at hia'
        simp [dictOf] at hia'
      · rw [hscan3] at hia'
        have hord : ordId ([] : List (Nat × Nat)) = [] := by decide
        rw [hord] at hia'
        simp [dictOf] at hia'
    intro hRTG
    have hclosed : ∀ b, Relation.ReflTransGen (indexEdge c8idx) 0 b →
        b = 0 ∨ b = 2 := by
      intro b h
      induction h with
      | refl => exact Or.inl rfl
      | @tail m c hab hbc ih =>
        rcases hedge m c hbc with ⟨hm, hc⟩ | ⟨hm, hc⟩
        · exact Or.inr hc
        · rcases ih with rfl | rfl
          · exact absurd hm (by decide)
          · exact absurd hm (by decide)
    rcases hclosed 1 hRTG with h | h
    · exact absurd h (by decide)
    · exact absurd h (by decide)

/-! ## The schema-to-pattern compiler (C9) -/

theorem isOk_ok {α : Type} (a : α) : (Except.ok a : Except String α).isOk = true := rfl

theorem isOk_error {α : Type} (e : String) :
    (Except.error e : Except String α).isOk = false := rfl

theorem isOk_bind_pure {α β : Type} (x : Except String α) (g : α → β) :
    (x >>= fun r => pure (g r) : Except String β).isOk = x.isOk := by
  cases x <;> rfl

theorem mapM_isOk {α : Type} (f : α → Except String String) :
    ∀ l : List α, (l.mapM f).isOk = l.all (fun a => (f a).isOk) := by
  intro l
  induction l with
  | nil => rfl
  | cons a l ih =>
    rw [List.mapM_cons, List.all_cons]
    cases hfa : f a with
    | error e => rfl
    | ok b =>
      have h1 : ((Except.ok b : Except String String) >>=
            fun b => l.mapM f >>= fun bs => pure (b :: bs)).isOk
          = (l.mapM f >>= fun bs =>
              (pure (b :: bs) : Except String (List String))).isOk := rfl
      rw [h1, isOk_bind_pure, ih, isOk_ok, Bool.true_and]

theorem toRegexAux_isOk (ctx : List (String × Schema)) (wsp : String) :
    ∀ (fuel : Nat) (s : Schema),
      (toRegexAux ctx wsp fuel s).isOk = supportedB ctx fuel s := by
  intro fuel
  induction fuel with
  | zero => intro s; rfl
  | succ fuel ih =>
    intro s
    cases s with
    | boolean => rfl
    | nullType => rfl
    | integer => rfl
    | number => rfl
    | stringFmt fmt =>
      cases fmt with
      | none => rfl
      | some f =>
        simp only [toRegexAux, supportedB]
        by_cases h1 : f = "date"
        · simp [h1, isOk_ok]
        · by_cases h2 : f = "date-time"
          · simp [h1, h2, isOk_ok]
          · by_cases h3 : f = "time"
            · simp [h1, h2, h3, isOk_ok]
            · by_cases h4 : f = "uuid"
              · simp [h1, h2, h3, h4, isOk_ok]
              · simp [h1, h2, h3, h4, isOk_error]
    | object props =>
      simp only [toRegexAux, supportedB]
      rw [isOk_bind_pure, mapM_isOk]
      have hfp : ∀ p : String × Schema,
          ((toRegexAux ctx wsp fuel p.2) >>= fun r =>
            (pure ("\"" ++ p.1 ++ "\"" ++ wsp ++ ":" ++ wsp ++ r) :
              Except String String)).isOk = supportedB ctx fuel p.2 := by
        intro p
        rw [isOk_bind_pure, ih]
      simp only [hfp]
    | array item =>
      simp only [toRegexAux, supportedB]
      rw [isOk_bind_pure, ih]
    | anyOf alts =>
      simp only [toRegexAux, supportedB]
      rw [isOk_bind_pure, mapM_isOk]
      simp only [ih]
    | ref name =>
      simp only [toRegexAux, supportedB]
      cases lookupDef ctx name with
      | some s2 => exact ih s2
      | none => rfl
    | unsupported c => rfl

theorem except_error_of_not_isOk (X : Except String String)
    (hX : X.isOk = false) : ∃ e, X = Except.error e := by
  cases X with
  | error e => exact ⟨e, rfl⟩
  | ok p =>
    rw [isOk_ok] at hX
    exact Bool.noConfusion hX

/-- C9: the schema-to-pattern compilation returns a success exactly for
supported schemas under a valid whitespace override, and an error — never
any partial pattern — for every unsupported or structurally invalid
construct (an unsupported node, a missing referenced definition) or an
invalid whitespace-pattern override. -/
theorem build_regex_from_schema_spec (wsOk : String → Bool)
    (whitespace_pattern : Option String) (defs : List (String × Schema))
    (fuel : Nat) (root : Schema) :
    (build_regex_from_schema wsOk whitespace_pattern defs fuel root =
        to_regex wsOk whitespace_pattern defs fuel root)
    ∧ ((to_regex wsOk whitespace_pattern defs fuel root).isOk = true ↔
        (∀ w, whitespace_pattern = some w → wsOk w = true) ∧
          supportedB defs fuel root = true)
    ∧ (∀ c, root = Schema.unsupported c →
        ∃ e, to_regex wsOk whitespace_pattern defs fuel root = Except.error e)
    ∧ (∀ name, root = Schema.ref name → lookupDef defs name = none →
        ∃ e, to_regex wsOk whitespace_pattern defs fuel root = Except.error e)
    ∧ (∀ w, whitespace_pattern = some w → wsOk w = false →
        ∃ e, to_regex wsOk whitespace_pattern defs fuel root = Except.error e)
    ∧ (∀ e p, to_regex wsOk whitespace_pattern defs fuel root = Except.error e →
        to_regex wsOk whitespace_pattern defs fuel root ≠ Except.ok p) := by
  have hiff : (to_regex wsOk whitespace_pattern defs fuel root).isOk = true ↔
      (∀ w, whitespace_pattern = some w → wsOk w = true) ∧
        supportedB defs fuel root = true := by
    cases whitespace_pattern with
    | none => simp [to_regex, toRegexAux_isOk]
    | some w =>
      by_cases hw : wsOk w = true
      · simp [to_regex, hw, toRegexAux_isOk]
      · simp only [to_regex, if_neg hw]
        constructor
        · intro h
          rw [isOk_error] at h
          exact Bool.noConfusion h
        · rintro ⟨hall, -⟩
          exact absurd (hall w rfl) hw
  have herr : supportedB defs fuel root = false ∨
        (∃ w, whitespace_pattern = some w ∧ wsOk w = false) →
      ∃ e, to_regex wsOk whitespace_pattern defs fuel root = Except.error e := by
    intro hcase
    refine except_error_of_not_isOk _ ?_
    rcases hcase with hsup | ⟨w, hws, hw⟩
    · cases hok : (to_regex wsOk whitespace_pattern defs fuel root).isOk with
      | false => rfl
      | true =>
        obtain ⟨-, h2⟩ := hiff.mp hok
        rw [h2] at hsup
        exact absurd hsup (by simp)
    · cases hok : (to_regex wsOk whitespace_pattern defs fuel root).isOk with
      | false => rfl
      | true =>
        obtain ⟨h1, -⟩ := hiff.mp hok
        rw [h1 w hws] at hw
        exact absurd hw (by simp)
  refine ⟨rfl, hiff, ?_, ?_, ?_, ?_⟩
  · intro c hroot
    subst hroot
    refine herr (Or.inl ?_)
    cases fuel <;> rfl
  · intro name hroot hlook
    subst hroot
    refine herr (Or.inl ?_)
    cases fuel with
    | zero => rfl
    | succ fuel => simp [supportedB, hlook]
  · intro w hws hw
    exact herr (Or.inr ⟨w, hws, hw⟩)
  · intro e p he hok
    rw [he] at hok
    exact Except.noConfusion hok

/-- Witness for C9: an unknown construct node compiles to an error and to
no pattern. -/
theorem build_regex_from_schema_spec_witness :
    ∃ e, to_regex (fun _ => true) none [] 1 (Schema.unsupported "foo") =
      Except.error e :=
  (build_regex_from_schema_spec (fun _ => true) none [] 1
    (Schema.unsupported "foo")).2.2.1 "foo" rfl
